import Mathlib

/-!
Shallow embedding of the configuration-language converter (`src/main.py`)
and proofs about its comment stripper, lexer and recursive-descent parser.

Source text is modelled as `List Char`.  Machine strings are Lean `String`s
(`String.mk` of the character list).  Token byte offsets (`Token.pos` in the
source) feed only error-message text and are omitted; parse errors are
modelled by an inductive error type whose constructors correspond one-to-one
to the distinct `ParseError` raise sites of the source.
-/

/-- Character class of the lexer's `NAME` pattern `[a-z_]+`. -/
def isNameC (c : Char) : Bool := ('a' ≤ c && c ≤ 'z') || c = '_'

/-- Character class of the lexer's `NUMBER` pattern `[0-9]+`. -/
def isDigitC (c : Char) : Bool := '0' ≤ c && c ≤ '9'

/-- Character class of the lexer's `SKIP` pattern `[ \t\r\n]+`. -/
def isSpaceC (c : Char) : Bool := c = ' ' || c = '\t' || c = '\r' || c = '\n'

/-- Anchored literal match: `isPre p cs` holds when `p` is an initial
segment of `cs` (regex literal alternatives are anchored by `re.match`). -/
def isPre : List Char → List Char → Bool
  | [], _ => true
  | _ :: _, [] => false
  | p :: ps, c :: cs => p == c && isPre ps cs

/-- Greedy scan of a character class, mirroring a regex `X+` / `X*` tail:
returns the maximal matching left segment and the remainder. -/
def takeGreedy (f : Char → Bool) : List Char → List Char × List Char
  | [] => ([], [])
  | c :: cs =>
    if f c then
      let r := takeGreedy f cs
      (c :: r.1, r.2)
    else ([], c :: cs)

/-! ## Comment stripper

`remove_multiline_comments` (main.py line 38) is
`re.sub(r"<#.*?#>", "", text, flags=re.DOTALL)`: scanning left to right,
each `<#` that is followed somewhere by `#>` is removed together with the
shortest stretch up to and including the nearest following `#>`; a `<#`
with no later `#>` matches nothing and is left in place. -/

/-- Scan for the nearest following `#>` and return the text after it, or
`none` when no `#>` occurs (the non-greedy `.*?#>` tail of the pattern). -/
def dropToClose : List Char → Option (List Char)
  | [] => none
  | c :: r =>
    match r with
    | [] => none
    | c2 :: r2 =>
      if c == '#' && c2 == '>' then some r2
      else dropToClose (c2 :: r2)

theorem dropToClose_length : ∀ cs r, dropToClose cs = some r → r.length < cs.length := by
  intro cs
  induction cs with
  | nil => intro r h; simp [dropToClose] at h
  | cons c cr ih =>
    intro r h
    match cr with
    | [] => simp [dropToClose] at h
    | c2 :: r2 =>
      simp only [dropToClose] at h
      by_cases hc : (c == '#' && c2 == '>') = true
      · rw [if_pos hc] at h
        cases h
        simp only [List.length_cons]
        omega
      · rw [if_neg hc] at h
        have := ih r h
        simp only [List.length_cons] at this ⊢
        omega

/-- Whether the text contains the opening marker `<#` as a substring. -/
def hasOpen : List Char → Bool
  | [] => false
  | [_] => false
  | c :: c2 :: r => (c == '<' && c2 == '#') || hasOpen (c2 :: r)

/-- Whether the text contains the closing marker `#>` as a substring. -/
def hasClose : List Char → Bool
  | [] => false
  | [_] => false
  | c :: c2 :: r => (c == '#' && c2 == '>') || hasClose (c2 :: r)

/-- The comment stripper: Lean rendering of
`re.sub(r"<#.*?#>", "", text, flags=re.DOTALL)` (main.py line 39). -/
def removeComments : List Char → List Char
  | [] => []
  | [c] => [c]
  | c :: c2 :: r =>
    if c == '<' && c2 == '#' then
      match h : dropToClose r with
      | some r2 => removeComments r2
      | none => c :: c2 :: removeComments r
    else c :: removeComments (c2 :: r)
termination_by cs => cs.length
decreasing_by
  · have := dropToClose_length r r2 h
    simp only [List.length_cons]
    omega
  · simp only [List.length_cons]
    omega
  · simp only [List.length_cons]
    omega

theorem hasClose_tail (c : Char) (l : List Char) (h : hasClose (c :: l) = false) :
    hasClose l = false := by
  match l with
  | [] => rfl
  | c2 :: r =>
    simp only [hasClose, Bool.or_eq_false_iff] at h
    exact h.2

theorem hasOpen_tail (c : Char) (l : List Char) (h : hasOpen (c :: l) = false) :
    hasOpen l = false := by
  match l with
  | [] => rfl
  | c2 :: r =>
    simp only [hasOpen, Bool.or_eq_false_iff] at h
    exact h.2

theorem hasOpen_head2 (x y : Char) (l : List Char) (h : hasOpen (x :: y :: l) = false) :
    (x == '<' && y == '#') = false := by
  simp only [hasOpen, Bool.or_eq_false_iff] at h
  exact h.1

/-- Without any closing marker in the text, the non-greedy close scan fails. -/
theorem dropToClose_none (cs : List Char) (h : hasClose cs = false) :
    dropToClose cs = none := by
  induction cs with
  | nil => rfl
  | cons c r ih =>
    match r with
    | [] => rfl
    | c2 :: r2 =>
      simp only [hasClose, Bool.or_eq_false_iff] at h
      simp only [dropToClose, h.1, if_false]
      exact ih h.2

/-- The close scan stops at the first `#>` after the comment body `c`. -/
theorem dropToClose_finds (c s : List Char) (h : hasClose c = false) :
    dropToClose (c ++ '#' :: '>' :: s) = some s := by
  induction c with
  | nil => rfl
  | cons x c2 ih =>
    match c2 with
    | [] =>
      show dropToClose (x :: '#' :: '>' :: s) = some s
      simp only [dropToClose]
      have : (x == '#' && '#' == '>') = false := by simp
      rw [this, if_neg (by simp)]
      rfl
    | y :: c3 =>
      simp only [hasClose, Bool.or_eq_false_iff] at h
      show dropToClose (x :: (y :: c3 ++ '#' :: '>' :: s)) = some s
      simp only [List.cons_append, dropToClose, h.1, if_false]
      exact ih h.2

/-- A text with no closing marker anywhere passes through the stripper
unchanged; in particular an unterminated `<#` removes nothing. -/
theorem removeComments_id (cs : List Char) (h : hasClose cs = false) :
    removeComments cs = cs := by
  have key : ∀ n cs, cs.length ≤ n → hasClose cs = false → removeComments cs = cs := by
    intro n
    induction n with
    | zero =>
      intro cs hl _
      match cs with
      | [] => simp [removeComments]
      | c :: r => simp at hl
    | succ n ih =>
      intro cs hl h
      match cs with
      | [] => simp [removeComments]
      | [c] => simp [removeComments]
      | c :: c2 :: r =>
        have hr : hasClose r = false := hasClose_tail c2 r (hasClose_tail c (c2 :: r) h)
        simp only [List.length_cons] at hl
        by_cases hc : (c == '<' && c2 == '#') = true
        · simp only [removeComments, hc, if_true]
          split
          · next r2 hsome =>
            rw [dropToClose_none r hr] at hsome
            cases hsome
          · rw [ih r (by omega) hr]
        · simp only [removeComments, hc, Bool.false_eq_true, if_false]
          rw [ih (c2 :: r) (by simp; omega) (hasClose_tail c (c2 :: r) h)]
  exact key cs.length cs le_rfl h

/-- Appending one character that is not `#` cannot create an opening marker. -/
theorem hasOpen_push (p : List Char) (a : Char) (hp : hasOpen p = false) (ha : a ≠ '#') :
    hasOpen (p ++ [a]) = false := by
  induction p with
  | nil => rfl
  | cons x p2 ih =>
    match p2 with
    | [] =>
      show hasOpen [x, a] = false
      simp [hasOpen, ha]
    | y :: p3 =>
      simp only [hasOpen, Bool.or_eq_false_iff] at hp
      show hasOpen (x :: (y :: p3 ++ [a])) = false
      simp only [List.cons_append, hasOpen, Bool.or_eq_false_iff]
      exact ⟨hp.1, by simpa using ih hp.2⟩

/-- Text containing no opening marker, and not ending right before one, is
copied verbatim by the stripper ahead of whatever follows. -/
theorem removeComments_copy (p rest : List Char)
    (h : hasOpen (p ++ rest.take 1) = false) :
    removeComments (p ++ rest) = p ++ removeComments rest := by
  induction p with
  | nil => simp
  | cons a p ih =>
    have h' : hasOpen (a :: (p ++ rest.take 1)) = false := by
      simpa using h
    have hstep : hasOpen (p ++ rest.take 1) = false :=
      hasOpen_tail _ _ h'
    have hgoal : (a :: p) ++ rest = a :: (p ++ rest) := by simp
    rw [hgoal, List.cons_append]
    match hpr : p ++ rest with
    | [] =>
      have hp : p = [] := by cases p <;> simp_all
      have hr : rest = [] := by cases rest <;> simp_all [hp]
      subst hp hr
      simp [removeComments]
    | b :: l2 =>
      have hb : ∃ tl, p ++ rest.take 1 = b :: tl := by
        cases p with
        | nil =>
          simp only [List.nil_append] at hpr ⊢
          rw [hpr]
          exact ⟨[], by simp⟩
        | cons q p2 =>
          simp only [List.cons_append] at hpr
          injection hpr with h1 h2
          exact ⟨p2 ++ rest.take 1, by simp [h1]⟩
      obtain ⟨tl, htl⟩ := hb
      rw [htl] at h'
      have hcond := hasOpen_head2 a b tl h'
      simp only [removeComments, hcond, Bool.false_eq_true, if_false]
      rw [← hpr, ih hstep]

/-! ## Lexer

`tokenize` (main.py lines 42-81) compiles the alternation
`TABLE|LBRACK|RBRACK|LPAREN|RPAREN|EQUAL|COMMA|SEMI|TRUE|FALSE|QMARK|RBRACE|STRING|NUMBER|NAME|SKIP`
and repeatedly matches it anchored at the cursor; Python regex alternation
is ordered, so the first alternative that matches at the cursor wins.
`SKIP` matches are discarded, a `QMARK` match is emitted as a `QUESTION`
token, and a final `EOF` token is appended.  A position with no match
raises `ParseError` (modelled as `none`). -/

/-- Body scan of the `STRING` pattern `"[^"]*"` after its opening quote:
collect characters up to the closing quote, or fail when none follows
(the class `[^"]` admits every character but `"`, newlines included). -/
def scanStringBody : List Char → Option (List Char × List Char)
  | [] => none
  | c :: cs =>
    if c = '"' then some ([], cs)
    else
      match scanStringBody cs with
      | some (s, r) => some (c :: s, r)
      | none => none

/-- Token kind tags, one per `TOKEN_*` constant of the source (the lexer
emits `QUESTION` for the `QMARK` pattern). -/
inductive TokT where
  | TABLE | LPAREN | RPAREN | LBRACK | RBRACK
  | NAME | NUMBER | STRING
  | EQUAL | COMMA | SEMI | QUESTION | RBRACE
  | TRUE | FALSE | EOF
deriving DecidableEq

/-- A token: kind and matched text.  The source also stores the match
offset `pos`, which feeds only error-message strings and is omitted here. -/
structure Token where
  ttype : TokT
  value : String
deriving DecidableEq

/-- One anchored match step of the lexer's ordered alternation, returning
the emitted token (`none` for a discarded `SKIP` match) and the rest of the
text, or `none` overall when no alternative matches at the cursor. -/
def nextTok : List Char → Option (Option Token × List Char)
  | [] => none
  | c :: cs =>
    if isPre ['t', 'a', 'b', 'l', 'e'] (c :: cs) then
      some (some ⟨.TABLE, "table"⟩, (c :: cs).drop 5)
    else if c = '[' then some (some ⟨.LBRACK, "["⟩, cs)
    else if c = ']' then some (some ⟨.RBRACK, "]"⟩, cs)
    else if c = '(' then some (some ⟨.LPAREN, "("⟩, cs)
    else if c = ')' then some (some ⟨.RPAREN, ")"⟩, cs)
    else if c = '=' then some (some ⟨.EQUAL, "="⟩, cs)
    else if c = ',' then some (some ⟨.COMMA, ","⟩, cs)
    else if c = ';' then some (some ⟨.SEMI, ";"⟩, cs)
    else if isPre ['t', 'r', 'u', 'e'] (c :: cs) then
      some (some ⟨.TRUE, "true"⟩, (c :: cs).drop 4)
    else if isPre ['f', 'a', 'l', 's', 'e'] (c :: cs) then
      some (some ⟨.FALSE, "false"⟩, (c :: cs).drop 5)
    else if c = '?' then
      match cs with
      | c2 :: cs2 => if c2 = '\x7b' then some (some ⟨.QUESTION, String.mk ['?', '\x7b']⟩, cs2) else none
      | [] => none
    else if c = '\x7d' then some (some ⟨.RBRACE, String.mk ['\x7d']⟩, cs)
    else if c = '"' then
      match scanStringBody cs with
      | some (s, r) => some (some ⟨.STRING, String.mk ('"' :: (s ++ ['"']))⟩, r)
      | none => none
    else if isDigitC c then
      let r := takeGreedy isDigitC cs
      some (some ⟨.NUMBER, String.mk (c :: r.1)⟩, r.2)
    else if isNameC c then
      let r := takeGreedy isNameC cs
      some (some ⟨.NAME, String.mk (c :: r.1)⟩, r.2)
    else if isSpaceC c then
      let r := takeGreedy isSpaceC cs
      some (none, r.2)
    else none

/-- The lexer loop, with an explicit step budget.  `tokenizeF 0 cs` is an
unreachable budget artifact: every step consumes at least one character, so
the wrapper's budget `cs.length + 1` always suffices. -/
def tokenizeF : Nat → List Char → Option (List Token)
  | 0, _ => none
  | fuel + 1, cs =>
    match cs with
    | [] => some [⟨.EOF, ""⟩]
    | c :: cs1 =>
      match nextTok (c :: cs1) with
      | none => none
      | some (ot, r) =>
        match tokenizeF fuel r with
        | none => none
        | some ts =>
          match ot with
          | some t => some (t :: ts)
          | none => some ts

/-- The lexer: `tokenize` of the source; `none` models a raised lex
`ParseError` (unexpected character). -/
def tokenize (cs : List Char) : Option (List Token) :=
  tokenizeF (cs.length + 1) cs

/-! ## Data model and parser

The parser (main.py lines 84-175) walks the token list with a cursor and a
constant table `self.constants`.  Here the cursor is the not-yet-consumed
suffix of the token list, threaded through explicitly, and the constant
table is an association list observed only through membership and lookup;
Python dict assignment rebinds a name, so insertion prepends and lookup
returns the most recent binding.  Parsed tables are association lists in
insertion order, matching Python dict iteration order. -/

/-- A parsed value: integer (`int(token.value)`), string, boolean, or table
(an ordered mapping represented as an association list). -/
inductive Value where
  | int (n : Nat)
  | str (s : String)
  | bool (b : Bool)
  | table (ps : List (String × Value))

/-- Parse failures.  Every constructor corresponds to one `raise
ParseError(...)` site of the source: `expected` to `Parser.eat`'s mismatch,
`badValue` to the trailing case of `parse_value`, `dupKey` to the duplicate
check of `parse_pairs`, `undefConst` to the missing-constant check of
`parse_value`.  `internal` is a modelling artifact covering the two
unreachable situations: an exhausted step budget, and reading past the
final `EOF` token (where Python would crash with `IndexError`). -/
inductive PErr where
  | expected (want : TokT) (got : TokT)
  | badValue (got : TokT)
  | dupKey (k : String)
  | undefConst (k : String)
  | internal
deriving DecidableEq

/-- Python `int()` on the matched digit string of a `NUMBER` token. -/
def natOfDigits (cs : List Char) : Nat :=
  cs.foldl (fun a c => 10 * a + (c.toNat - 48)) 0

/-- Python `str.strip('"')`: remove every leading and trailing `"`.
Applied by `parse_value` to the quoted lexeme of a `STRING` token. -/
def stripQuotes (s : String) : String :=
  String.mk ((((s.toList.dropWhile (fun a => a == '"')).reverse.dropWhile
    (fun a => a == '"')).reverse))

/-- The constant table: `self.constants`. -/
abbrev ConstTable := List (String × Value)

/-- Python dict assignment `self.constants[name] = val`: rebind the name.
Only lookup and membership ever observe the table, so prepending models it
faithfully. -/
def insertConst (consts : ConstTable) (k : String) (v : Value) : ConstTable :=
  (k, v) :: consts

/-- Python dict lookup `self.constants[name]` / membership `name in
self.constants`: the most recent binding wins. -/
def lookupConst : ConstTable → String → Option Value
  | [], _ => none
  | (k, v) :: r, n => if k = n then some v else lookupConst r n

/-- Membership test `p[0] in result` used by the duplicate-key check of
`parse_pairs` on the pairs accumulated so far. -/
def keyMem (k : String) (ps : List (String × Value)) : Bool :=
  ps.any (fun p => p.1 == k)

/-- Key uniqueness of an association list (each key absent from its tail). -/
def keysNodup : List (String × Value) → Bool
  | [] => true
  | p :: ps => !keyMem p.1 ps && keysNodup ps

/-- The kind of the token at the cursor, `self.current_token().ttype`; a
lexer token list always ends with an unconsumed `EOF` token, so the empty
case is unreachable. -/
def peekT : List Token → TokT
  | [] => .EOF
  | t :: _ => t.ttype

/-- `Parser.eat`: check the token kind at the cursor and advance past it,
or fail with the expected/actual kinds.  An empty cursor is unreachable
(the `EOF` token is never consumed) and maps to `internal`. -/
def eatTok (want : TokT) : List Token → Except PErr (Token × List Token)
  | [] => .error .internal
  | t :: ts => if t.ttype = want then .ok (t, ts) else .error (.expected want t.ttype)

mutual

/-- `Parser.parse_value` (main.py lines 150-175), with a step budget that
every parser function decrements on entry; the wrapper budgets make `0`
unreachable. -/
def parseValueF (consts : ConstTable) : Nat → List Token → Except PErr (Value × List Token)
  | 0, _ => .error .internal
  | _ + 1, [] => .error .internal
  | fuel + 1, t :: ts =>
    match t.ttype with
    | .NUMBER => .ok (.int (natOfDigits t.value.toList), ts)
    | .STRING => .ok (.str (stripQuotes t.value), ts)
    | .TRUE => .ok (.bool true, ts)
    | .FALSE => .ok (.bool false, ts)
    | .TABLE =>
      match parseTableExprF consts fuel (t :: ts) with
      | .ok (ps, r) => .ok (.table ps, r)
      | .error e => .error e
    | .QUESTION =>
      match eatTok .NAME ts with
      | .error e => .error e
      | .ok (nameT, ts2) =>
        match eatTok .RBRACE ts2 with
        | .error e => .error e
        | .ok (_, ts3) =>
          match lookupConst consts nameT.value with
          | some v => .ok (v, ts3)
          | none => .error (.undefConst nameT.value)
    | g => .error (.badValue g)

/-- `Parser.parse_table_expr` (main.py lines 121-128). -/
def parseTableExprF (consts : ConstTable) : Nat → List Token →
    Except PErr (List (String × Value) × List Token)
  | 0, _ => .error .internal
  | fuel + 1, ts =>
    match eatTok .TABLE ts with
    | .error e => .error e
    | .ok (_, ts1) =>
      match eatTok .LPAREN ts1 with
      | .error e => .error e
      | .ok (_, ts2) =>
        match eatTok .LBRACK ts2 with
        | .error e => .error e
        | .ok (_, ts3) =>
          match parsePairsF consts fuel ts3 with
          | .error e => .error e
          | .ok (ps, ts4) =>
            match eatTok .RBRACK ts4 with
            | .error e => .error e
            | .ok (_, ts5) =>
              match eatTok .RPAREN ts5 with
              | .error e => .error e
              | .ok (_, ts6) => .ok (ps, ts6)

/-- `Parser.parse_pairs` (main.py lines 130-142), entry: an empty pair list
when the cursor is not at a `NAME`, otherwise a first unchecked pair
followed by the comma loop. -/
def parsePairsF (consts : ConstTable) : Nat → List Token →
    Except PErr (List (String × Value) × List Token)
  | 0, _ => .error .internal
  | fuel + 1, ts =>
    if peekT ts = .NAME then
      match parsePairF consts fuel ts with
      | .error e => .error e
      | .ok (p, r) => parsePairsAuxF consts fuel [p] r
    else .ok ([], ts)

/-- The `while self.peek('COMMA')` loop of `parse_pairs`: parse the next
pair after each comma, fail on a key already accumulated, else append. -/
def parsePairsAuxF (consts : ConstTable) : Nat → List (String × Value) → List Token →
    Except PErr (List (String × Value) × List Token)
  | 0, _, _ => .error .internal
  | fuel + 1, acc, ts =>
    if peekT ts = .COMMA then
      match eatTok .COMMA ts with
      | .error e => .error e
      | .ok (_, ts1) =>
        match parsePairF consts fuel ts1 with
        | .error e => .error e
        | .ok (p, r) =>
          if keyMem p.1 acc then .error (.dupKey p.1)
          else parsePairsAuxF consts fuel (acc ++ [p]) r
    else .ok (acc, ts)

/-- `Parser.parse_pair` (main.py lines 144-148). -/
def parsePairF (consts : ConstTable) : Nat → List Token →
    Except PErr ((String × Value) × List Token)
  | 0, _ => .error .internal
  | fuel + 1, ts =>
    match eatTok .NAME ts with
    | .error e => .error e
    | .ok (nameT, ts1) =>
      match eatTok .EQUAL ts1 with
      | .error e => .error e
      | .ok (_, ts2) =>
        match parseValueF consts fuel ts2 with
        | .error e => .error e
        | .ok (v, ts3) => .ok ((nameT.value, v), ts3)

end

/-- `Parser.parse_constant_decl` (main.py lines 114-119): the assignment to
`self.constants` happens only after the whole declaration, semicolon
included, has been consumed; here the new binding is returned to the loop. -/
def parseConstDeclF (consts : ConstTable) : Nat → List Token →
    Except PErr ((String × Value) × List Token)
  | 0, _ => .error .internal
  | fuel + 1, ts =>
    match eatTok .NAME ts with
    | .error e => .error e
    | .ok (nameT, ts1) =>
      match eatTok .EQUAL ts1 with
      | .error e => .error e
      | .ok (_, ts2) =>
        match parseValueF consts fuel ts2 with
        | .error e => .error e
        | .ok (v, ts3) =>
          match eatTok .SEMI ts3 with
          | .error e => .error e
          | .ok (_, ts4) => .ok ((nameT.value, v), ts4)

/-- The `while self.peek(TOKEN_NAME)` loop of `parse_config` (main.py lines
104-110): speculatively parse a constant declaration; on any parse error
restore the saved cursor and stop (the constant table is only extended on
full success of a declaration). -/
def parseConfigLoopF : Nat → ConstTable → List Token → ConstTable × List Token
  | 0, consts, ts => (consts, ts)
  | fuel + 1, consts, ts =>
    if peekT ts = .NAME then
      match parseConstDeclF consts fuel ts with
      | .ok (kv, r) => parseConfigLoopF fuel (insertConst consts kv.1 kv.2) r
      | .error _ => (consts, ts)
    else (consts, ts)

/-- `Parser.parse_config` (main.py lines 103-112): optional constant
declarations, then the root table expression, whose pair list is the
result.  Tokens left after the root table are not examined. -/
def parseConfigF (fuel : Nat) (ts : List Token) :
    Except PErr (List (String × Value) × List Token) :=
  let st := parseConfigLoopF fuel [] ts
  parseTableExprF st.1 fuel st.2

/-- The whole pipeline of `main` (main.py lines 178-186): strip comments,
tokenize, parse.  `none` is a lex error; the step budget is generous enough
for any input (each budget tick consumes at least one token or character). -/
def runPipeline (s : String) : Option (Except PErr (List (String × Value) × List Token)) :=
  match tokenize (removeComments s.toList) with
  | none => none
  | some ts => some (parseConfigF (8 * ts.length + 8) ts)

/-! ## Value predicates and canonical token rendering -/

mutual

/-- Every table inside the value tree has pairwise-distinct keys. -/
def deepNodup : Value → Bool
  | .int _ => true
  | .str _ => true
  | .bool _ => true
  | .table ps => keysNodup ps && deepNodupL ps

def deepNodupL : List (String × Value) → Bool
  | [] => true
  | p :: ps => deepNodup p.2 && deepNodupL ps

end

mutual

/-- No string inside the value tree contains a double-quote character. -/
def noQuote : Value → Bool
  | .int _ => true
  | .str s => !(s.toList.contains '"')
  | .bool _ => true
  | .table ps => noQuoteL ps

def noQuoteL : List (String × Value) → Bool
  | [] => true
  | p :: ps => noQuote p.2 && noQuoteL ps

end

/-- The two tree invariants the parser maintains together. -/
abbrev GoodV (v : Value) : Prop := deepNodup v = true ∧ noQuote v = true

/-- Every value bound in the constant table satisfies the invariants. -/
abbrev GoodC (consts : ConstTable) : Prop := ∀ kv ∈ consts, GoodV kv.2

/-- Lexer-shape invariant of one token: a `STRING` token's text is a
quote-free body inside its two quote delimiters. -/
def WFtok (t : Token) : Prop :=
  t.ttype = .STRING →
    ∃ l, l.contains '"' = false ∧ t.value = String.mk ('"' :: (l ++ ['"']))

/-- Lexer-shape invariant of a token list. -/
def WFts (ts : List Token) : Prop := ∀ t ∈ ts, WFtok t

/-- Decimal digit characters of `n`, most significant first (the spelling
`repr` would give a `NUMBER` token). -/
def natDigits (n : Nat) : List Char :=
  if n = 0 then ['0'] else (Nat.digits 10 n).reverse.map Nat.digitChar

mutual

/-- Canonical token rendering of a value, used to state parser
completeness: the token list the lexer would emit for a literal denoting
the value. -/
def valueToks : Value → List Token
  | .int n => [⟨.NUMBER, String.mk (natDigits n)⟩]
  | .str s => [⟨.STRING, String.mk ('"' :: (s.toList ++ ['"']))⟩]
  | .bool true => [⟨.TRUE, "true"⟩]
  | .bool false => [⟨.FALSE, "false"⟩]
  | .table ps => ⟨.TABLE, "table"⟩ :: ⟨.LPAREN, "("⟩ :: ⟨.LBRACK, "["⟩ ::
      (pairsToks ps ++ [⟨.RBRACK, "]"⟩, ⟨.RPAREN, ")"⟩])

/-- Token rendering of a table body: first pair bare, later pairs behind
commas. -/
def pairsToks : List (String × Value) → List Token
  | [] => []
  | p :: ps => pairToks p ++ pairsTailToks ps

/-- Token rendering of the comma-separated tail of a table body. -/
def pairsTailToks : List (String × Value) → List Token
  | [] => []
  | p :: ps => ⟨.COMMA, ","⟩ :: (pairToks p ++ pairsTailToks ps)

/-- Token rendering of one `NAME = value` pair. -/
def pairToks : String × Value → List Token
  | (k, v) => ⟨.NAME, k⟩ :: ⟨.EQUAL, "="⟩ :: valueToks v

end

mutual

/-- A step budget sufficient for parsing the rendering of a value. -/
def needV : Value → Nat
  | .int _ => 1
  | .str _ => 1
  | .bool _ => 1
  | .table ps => 2 + needP ps

/-- A step budget sufficient for parsing a rendered table body. -/
def needP : List (String × Value) → Nat
  | [] => 1
  | p :: ps => 2 + needV p.2 + needP ps

end

/-! ## Round-trip facts about lexeme decoding -/

theorem toList_mk (l : List Char) : (String.mk l).toList = l := rfl

theorem digitChar_decode : ∀ d, d < 10 → (Nat.digitChar d).toNat - 48 = d := by decide

theorem natOfDigits_rev (L : List Nat) (hd : ∀ d ∈ L, d < 10) :
    natOfDigits (L.reverse.map Nat.digitChar) = Nat.ofDigits 10 L := by
  induction L with
  | nil => simp [natOfDigits, Nat.ofDigits_nil]
  | cons d L ih =>
    have hdl : ∀ x ∈ L, x < 10 := fun x hx => hd x (List.mem_cons_of_mem d hx)
    simp only [List.reverse_cons, List.map_append, List.map_cons, List.map_nil]
    unfold natOfDigits
    rw [List.foldl_append]
    unfold natOfDigits at ih
    rw [ih hdl, Nat.ofDigits_cons]
    simp only [List.foldl_cons, List.foldl_nil]
    rw [digitChar_decode d (hd d (List.mem_cons_self d L))]
    ring

/-- Decoding a `NUMBER` lexeme written by `natDigits` recovers the number:
Python `int()` inverts decimal rendering. -/
theorem natOfDigits_natDigits (n : Nat) : natOfDigits (natDigits n) = n := by
  by_cases h : n = 0
  · subst h; decide
  · unfold natDigits
    rw [if_neg h]
    rw [natOfDigits_rev (Nat.digits 10 n)
      (fun d hd => Nat.digits_lt_base (by norm_num) hd)]
    exact Nat.ofDigits_digits 10 n

theorem dropWhile_no {p : Char → Bool} (m : List Char) (h : ∀ a ∈ m, p a = false) :
    List.dropWhile p m = m := by
  match m with
  | [] => rfl
  | c :: m2 =>
    rw [List.dropWhile_cons]
    rw [h c (List.mem_cons_self c m2)]
    simp

theorem contains_false_elem {l : List Char} (h : l.contains '"' = false) :
    ∀ a ∈ l, (a == '"') = false := by
  intro a ha
  induction l with
  | nil => cases ha
  | cons c l2 ih =>
    simp only [List.contains_cons, Bool.or_eq_false_iff] at h
    rcases List.mem_cons.mp ha with rfl | hm
    · have h1 := h.1
      rw [beq_eq_false_iff_ne] at h1 ⊢
      exact Ne.symm h1
    · exact ih h.2 hm

/-- Python `strip('"')` on a quoted lexeme with quote-free body returns
exactly the body: the literal text between the delimiters. -/
theorem stripQuotes_quoted (l : List Char) (h : l.contains '"' = false) :
    stripQuotes (String.mk ('"' :: (l ++ ['"']))) = String.mk l := by
  have helem := contains_false_elem h
  match l with
  | [] => rfl
  | x :: l2 =>
    have hx : (x == '"') = false := helem x (List.mem_cons_self x l2)
    unfold stripQuotes
    rw [toList_mk]
    have h1 : List.dropWhile (fun a => a == '"') ('"' :: (x :: l2 ++ ['"'])) =
        x :: l2 ++ ['"'] := by
      rw [List.dropWhile_cons]
      simp only [beq_self_eq_true, if_true]
      simp only [List.cons_append, List.dropWhile_cons, hx]
      simp
    rw [h1]
    have hrev : (x :: l2 ++ ['"']).reverse = '"' :: (x :: l2).reverse := by
      simp
    rw [hrev, List.dropWhile_cons]
    simp only [beq_self_eq_true, if_true]
    rw [dropWhile_no ((x :: l2).reverse) (by
      intro a ha
      exact helem a (List.mem_reverse.mp ha))]
    simp

/-- A successful string-body scan yields a quote-free body and splits the
input as body, closing quote, remainder. -/
theorem scanStringBody_ok (cs s r : List Char) (h : scanStringBody cs = some (s, r)) :
    s.contains '"' = false ∧ cs = s ++ '"' :: r := by
  induction cs generalizing s with
  | nil => simp [scanStringBody] at h
  | cons c cs2 ih =>
    simp only [scanStringBody] at h
    by_cases hc : c = '"'
    · rw [if_pos hc] at h
      simp only [Option.some.injEq, Prod.mk.injEq] at h
      obtain ⟨hs, hr⟩ := h
      subst hs
      subst hr
      subst hc
      exact ⟨rfl, rfl⟩
    · rw [if_neg hc] at h
      match hs : scanStringBody cs2 with
      | none => rw [hs] at h; cases h
      | some (s2, r2) =>
        rw [hs] at h
        simp only [Option.some.injEq, Prod.mk.injEq] at h
        obtain ⟨hsv, hrv⟩ := h
        subst hsv
        subst hrv
        obtain ⟨h1, h2⟩ := ih s2 hs
        constructor
        · simp only [List.contains_cons, Bool.or_eq_false_iff]
          refine ⟨?_, h1⟩
          rw [beq_eq_false_iff_ne]
          exact fun hh => hc hh.symm
        · rw [h2]; rfl

/-- The string-body scan accepts any quote-free body up to the next quote. -/
theorem scanStringBody_complete (s r : List Char) (h : s.contains '"' = false) :
    scanStringBody (s ++ '"' :: r) = some (s, r) := by
  induction s with
  | nil => simp [scanStringBody]
  | cons c s2 ih =>
    have hc : (c = '"') = False := by
      have := contains_false_elem h c (List.mem_cons_self c s2)
      rw [beq_eq_false_iff_ne] at this
      simp [this]
    simp only [List.cons_append, scanStringBody, hc, if_false, List.append_eq]
    rw [ih (by
      simp only [List.contains_cons, Bool.or_eq_false_iff] at h
      exact h.2)]

/-- Every token the lexer step emits satisfies the string-shape invariant:
only the `STRING` alternative emits a `STRING` token, and its text is the
scanned quote-free body between the two quote delimiters. -/
theorem nextTok_wf (cs : List Char) (ot : Option Token) (r : List Char)
    (h : nextTok cs = some (ot, r)) : ∀ t, ot = some t → WFtok t := by
  match cs with
  | [] => simp [nextTok] at h
  | c :: cs1 =>
    simp only [nextTok] at h
    by_cases hA1 : isPre ['t', 'a', 'b', 'l', 'e'] (c :: cs1) = true
    · rw [if_pos hA1] at h
      simp only [Option.some.injEq, Prod.mk.injEq] at h
      obtain ⟨ho, _⟩ := h
      subst ho
      intro t ht
      injection ht with ht
      subst ht
      intro htype
      simp at htype
    · rw [if_neg hA1] at h
      by_cases hA2 : c = '['
      · rw [if_pos hA2] at h
        simp only [Option.some.injEq, Prod.mk.injEq] at h
        obtain ⟨ho, _⟩ := h
        subst ho
        intro t ht
        injection ht with ht
        subst ht
        intro htype
        simp at htype
      · rw [if_neg hA2] at h
        by_cases hA3 : c = ']'
        · rw [if_pos hA3] at h
          simp only [Option.some.injEq, Prod.mk.injEq] at h
          obtain ⟨ho, _⟩ := h
          subst ho
          intro t ht
          injection ht with ht
          subst ht
          intro htype
          simp at htype
        · rw [if_neg hA3] at h
          by_cases hA4 : c = '('
          · rw [if_pos hA4] at h
            simp only [Option.some.injEq, Prod.mk.injEq] at h
            obtain ⟨ho, _⟩ := h
            subst ho
            intro t ht
            injection ht with ht
            subst ht
            intro htype
            simp at htype
          · rw [if_neg hA4] at h
            by_cases hA5 : c = ')'
            · rw [if_pos hA5] at h
              simp only [Option.some.injEq, Prod.mk.injEq] at h
              obtain ⟨ho, _⟩ := h
              subst ho
              intro t ht
              injection ht with ht
              subst ht
              intro htype
              simp at htype
            · rw [if_neg hA5] at h
              by_cases hA6 : c = '='
              · rw [if_pos hA6] at h
                simp only [Option.some.injEq, Prod.mk.injEq] at h
                obtain ⟨ho, _⟩ := h
                subst ho
                intro t ht
                injection ht with ht
                subst ht
                intro htype
                simp at htype
              · rw [if_neg hA6] at h
                by_cases hA7 : c = ','
                · rw [if_pos hA7] at h
                  simp only [Option.some.injEq, Prod.mk.injEq] at h
                  obtain ⟨ho, _⟩ := h
                  subst ho
                  intro t ht
                  injection ht with ht
                  subst ht
                  intro htype
                  simp at htype
                · rw [if_neg hA7] at h
                  by_cases hA8 : c = ';'
                  · rw [if_pos hA8] at h
                    simp only [Option.some.injEq, Prod.mk.injEq] at h
                    obtain ⟨ho, _⟩ := h
                    subst ho
                    intro t ht
                    injection ht with ht
                    subst ht
                    intro htype
                    simp at htype
                  · rw [if_neg hA8] at h
                    by_cases hA9 : isPre ['t', 'r', 'u', 'e'] (c :: cs1) = true
                    · rw [if_pos hA9] at h
                      simp only [Option.some.injEq, Prod.mk.injEq] at h
                      obtain ⟨ho, _⟩ := h
                      subst ho
                      intro t ht
                      injection ht with ht
                      subst ht
                      intro htype
                      simp at htype
                    · rw [if_neg hA9] at h
                      by_cases hA10 : isPre ['f', 'a', 'l', 's', 'e'] (c :: cs1) = true
                      · rw [if_pos hA10] at h
                        simp only [Option.some.injEq, Prod.mk.injEq] at h
                        obtain ⟨ho, _⟩ := h
                        subst ho
                        intro t ht
                        injection ht with ht
                        subst ht
                        intro htype
                        simp at htype
                      · rw [if_neg hA10] at h
                        by_cases hA11 : c = '?'
                        · rw [if_pos hA11] at h
                          match cs1 with
                          | [] => simp at h
                          | c2 :: cs2 =>
                            simp only at h
                            by_cases hB : c2 = '\x7b'
                            · rw [if_pos hB] at h
                              simp only [Option.some.injEq, Prod.mk.injEq] at h
                              obtain ⟨ho, _⟩ := h
                              subst ho
                              intro t ht
                              injection ht with ht
                              subst ht
                              intro htype
                              simp at htype
                            · rw [if_neg hB] at h
                              simp at h
                        · rw [if_neg hA11] at h
                          by_cases hA12 : c = '\x7d'
                          · rw [if_pos hA12] at h
                            simp only [Option.some.injEq, Prod.mk.injEq] at h
                            obtain ⟨ho, _⟩ := h
                            subst ho
                            intro t ht
                            injection ht with ht
                            subst ht
                            intro htype
                            simp at htype
                          · rw [if_neg hA12] at h
                            by_cases hA13 : c = '"'
                            · rw [if_pos hA13] at h
                              match hscan : scanStringBody cs1 with
                              | none => rw [hscan] at h; simp at h
                              | some (s, r2) =>
                                rw [hscan] at h
                                simp only [Option.some.injEq, Prod.mk.injEq] at h
                                obtain ⟨ho, _⟩ := h
                                subst ho
                                intro t ht
                                injection ht with ht
                                subst ht
                                intro _
                                exact ⟨s, (scanStringBody_ok cs1 s r2 hscan).1, rfl⟩
                            · rw [if_neg hA13] at h
                              by_cases hA14 : isDigitC c = true
                              · rw [if_pos hA14] at h
                                simp only [Option.some.injEq, Prod.mk.injEq] at h
                                obtain ⟨ho, _⟩ := h
                                subst ho
                                intro t ht
                                injection ht with ht
                                subst ht
                                intro htype
                                simp at htype
                              · rw [if_neg hA14] at h
                                by_cases hA15 : isNameC c = true
                                · rw [if_pos hA15] at h
                                  simp only [Option.some.injEq, Prod.mk.injEq] at h
                                  obtain ⟨ho, _⟩ := h
                                  subst ho
                                  intro t ht
                                  injection ht with ht
                                  subst ht
                                  intro htype
                                  simp at htype
                                · rw [if_neg hA15] at h
                                  by_cases hA16 : isSpaceC c = true
                                  · rw [if_pos hA16] at h
                                    simp only [Option.some.injEq, Prod.mk.injEq] at h
                                    obtain ⟨ho, _⟩ := h
                                    subst ho
                                    intro t ht
                                    simp at ht
                                  · rw [if_neg hA16] at h
                                    simp at h

/-- Every token list the lexer produces satisfies the string-shape
invariant (the final `EOF` token trivially so). -/
theorem tokenizeF_wf (fuel : Nat) (cs : List Char) (ts : List Token)
    (h : tokenizeF fuel cs = some ts) : WFts ts := by
  induction fuel generalizing cs ts with
  | zero => simp [tokenizeF] at h
  | succ fuel ih =>
    match cs with
    | [] =>
      simp only [tokenizeF, Option.some.injEq] at h
      subst h
      intro t ht
      simp only [List.mem_singleton] at ht
      subst ht
      intro htype
      simp at htype
    | c :: cs1 =>
      simp only [tokenizeF] at h
      match hnext : nextTok (c :: cs1) with
      | none => rw [hnext] at h; simp at h
      | some (ot, r) =>
        rw [hnext] at h
        simp only at h
        match hrec : tokenizeF fuel r with
        | none => rw [hrec] at h; simp at h
        | some ts2 =>
          rw [hrec] at h
          simp only at h
          match ot, h with
          | some t0, h =>
            simp only [Option.some.injEq] at h
            subst h
            intro t ht
            rcases List.mem_cons.mp ht with rfl | hm
            · exact nextTok_wf (c :: cs1) (some t) r hnext t rfl
            · exact ih r ts2 hrec t hm
          | none, h =>
            simp only [Option.some.injEq] at h
            subst h
            exact ih r ts2 hrec

/-! ## Small parser facts -/

theorem eatTok_ok (want : TokT) (ts : List Token) (t : Token) (r : List Token)
    (h : eatTok want ts = .ok (t, r)) : ts = t :: r ∧ t.ttype = want := by
  match ts with
  | [] => simp [eatTok] at h
  | t0 :: ts0 =>
    simp only [eatTok] at h
    by_cases hw : t0.ttype = want
    · rw [if_pos hw] at h
      simp only [Except.ok.injEq, Prod.mk.injEq] at h
      obtain ⟨h1, h2⟩ := h
      subst h1
      subst h2
      exact ⟨rfl, hw⟩
    · rw [if_neg hw] at h
      cases h

theorem eatTok_cons (want : TokT) (t : Token) (r : List Token) (h : t.ttype = want) :
    eatTok want (t :: r) = .ok (t, r) := by
  simp [eatTok, h]

theorem WFts_tail {t : Token} {ts : List Token} (h : WFts (t :: ts)) : WFts ts :=
  fun x hx => h x (List.mem_cons_of_mem t hx)

theorem WFts_head {t : Token} {ts : List Token} (h : WFts (t :: ts)) : WFtok t :=
  h t (List.mem_cons_self t ts)

theorem lookupConst_mem (consts : ConstTable) (n : String) (v : Value)
    (h : lookupConst consts n = some v) : (n, v) ∈ consts := by
  induction consts with
  | nil => simp [lookupConst] at h
  | cons kv r ih =>
    match kv with
    | (k, w) =>
      simp only [lookupConst] at h
      by_cases hk : k = n
      · rw [if_pos hk] at h
        simp only [Option.some.injEq] at h
        subst h
        subst hk
        exact List.mem_cons_self _ _
      · rw [if_neg hk] at h
        exact List.mem_cons_of_mem _ (ih h)

theorem keyMem_cons (k : String) (p : String × Value) (ps : List (String × Value)) :
    keyMem k (p :: ps) = ((p.1 == k) || keyMem k ps) := by
  simp [keyMem]

theorem keyMem_append (k : String) (xs ys : List (String × Value)) :
    keyMem k (xs ++ ys) = (keyMem k xs || keyMem k ys) := by
  simp [keyMem, List.any_append]

theorem deepNodupL_append (xs ys : List (String × Value)) :
    deepNodupL (xs ++ ys) = (deepNodupL xs && deepNodupL ys) := by
  induction xs with
  | nil => simp [deepNodupL]
  | cons p xs ih =>
    simp only [List.cons_append, deepNodupL, List.append_eq, ih, Bool.and_assoc]

theorem noQuoteL_append (xs ys : List (String × Value)) :
    noQuoteL (xs ++ ys) = (noQuoteL xs && noQuoteL ys) := by
  induction xs with
  | nil => simp [noQuoteL]
  | cons p xs ih =>
    simp only [List.cons_append, noQuoteL, List.append_eq, ih, Bool.and_assoc]

theorem keysNodup_snoc (acc : List (String × Value)) (p : String × Value)
    (h1 : keysNodup acc = true) (h2 : keyMem p.1 acc = false) :
    keysNodup (acc ++ [p]) = true := by
  induction acc with
  | nil => simp [keysNodup, keyMem]
  | cons a acc ih =>
    simp only [keysNodup, Bool.and_eq_true, Bool.not_eq_true'] at h1
    rw [keyMem_cons, Bool.or_eq_false_iff] at h2
    simp only [List.cons_append, keysNodup, List.append_eq, Bool.and_eq_true,
      Bool.not_eq_true']
    refine ⟨?_, ih h1.2 h2.2⟩
    rw [keyMem_append, Bool.or_eq_false_iff]
    refine ⟨h1.1, ?_⟩
    rw [keyMem_cons]
    rw [Bool.or_eq_false_iff]
    refine ⟨?_, by simp [keyMem]⟩
    rw [beq_eq_false_iff_ne] at h2 ⊢
    exact fun hh => h2.1 hh.symm

theorem goodTable_nil : GoodV (.table []) := by
  constructor
  · simp [deepNodup, deepNodupL, keysNodup]
  · simp [noQuote, noQuoteL]

theorem goodTable_single (p : String × Value) (h : GoodV p.2) : GoodV (.table [p]) := by
  obtain ⟨h1, h2⟩ := h
  constructor
  · simp [deepNodup, deepNodupL, keysNodup, keyMem, h1]
  · simp [noQuote, noQuoteL, h2]

theorem goodTable_snoc (acc : List (String × Value)) (p : String × Value)
    (hacc : GoodV (.table acc)) (hp : GoodV p.2) (hmem : keyMem p.1 acc = false) :
    GoodV (.table (acc ++ [p])) := by
  obtain ⟨ha1, ha2⟩ := hacc
  obtain ⟨hp1, hp2⟩ := hp
  simp only [deepNodup, Bool.and_eq_true] at ha1
  simp only [noQuote] at ha2
  constructor
  · simp only [deepNodup, Bool.and_eq_true]
    refine ⟨keysNodup_snoc acc p ha1.1 hmem, ?_⟩
    rw [deepNodupL_append]
    simp [ha1.2, deepNodupL, hp1]
  · simp only [noQuote]
    rw [noQuoteL_append]
    simp [ha2, noQuoteL, hp2]

theorem goodTable_mem (ps : List (String × Value)) (h : GoodV (.table ps)) :
    ∀ p ∈ ps, GoodV p.2 := by
  induction ps with
  | nil => intro p hp; cases hp
  | cons q ps ih =>
    obtain ⟨h1, h2⟩ := h
    simp only [deepNodup, keysNodup, deepNodupL, Bool.and_eq_true,
      Bool.not_eq_true'] at h1
    simp only [noQuote, noQuoteL, Bool.and_eq_true] at h2
    intro p hp
    rcases List.mem_cons.mp hp with rfl | hm
    · exact ⟨h1.2.1, h2.1⟩
    · refine ih ⟨?_, ?_⟩ p hm
      · simp only [deepNodup, Bool.and_eq_true]
        exact ⟨h1.1.2, h1.2.2⟩
      · simp only [noQuote]
        exact h2.2

theorem goodTable_keys (ps : List (String × Value)) (h : GoodV (.table ps)) :
    keysNodup ps = true := by
  have h1 := h.1
  simp only [deepNodup, Bool.and_eq_true] at h1
  exact h1.1

/-- Invariant preservation through one budget layer of the mutual parser:
from well-formed constants and tokens, every successful parse returns a
value tree with duplicate-free table keys and quote-free strings, and a
well-formed remaining cursor. -/
theorem parserGood (fuel : Nat) :
    (∀ consts ts v r, GoodC consts → WFts ts →
      parseValueF consts fuel ts = .ok (v, r) → GoodV v ∧ WFts r)
    ∧ (∀ consts ts ps r, GoodC consts → WFts ts →
      parseTableExprF consts fuel ts = .ok (ps, r) → GoodV (.table ps) ∧ WFts r)
    ∧ (∀ consts ts ps r, GoodC consts → WFts ts →
      parsePairsF consts fuel ts = .ok (ps, r) → GoodV (.table ps) ∧ WFts r)
    ∧ (∀ consts acc ts ps r, GoodC consts → WFts ts → GoodV (.table acc) →
      parsePairsAuxF consts fuel acc ts = .ok (ps, r) → GoodV (.table ps) ∧ WFts r)
    ∧ (∀ consts ts p r, GoodC consts → WFts ts →
      parsePairF consts fuel ts = .ok (p, r) → GoodV p.2 ∧ WFts r) := by
  induction fuel with
  | zero =>
    refine ⟨?_, ?_, ?_, ?_, ?_⟩
    · intro consts ts v r _ _ h; cases h
    · intro consts ts ps r _ _ h; cases h
    · intro consts ts ps r _ _ h; cases h
    · intro consts acc ts ps r _ _ _ h; cases h
    · intro consts ts p r _ _ h; cases h
  | succ fuel ih =>
    obtain ⟨ihv, iht, ihps, ihaux, ihp⟩ := ih
    have hpair : ∀ consts ts p r, GoodC consts → WFts ts →
        parsePairF consts (fuel + 1) ts = .ok (p, r) → GoodV p.2 ∧ WFts r := by
      intro consts ts p r hc hw h
      simp only [parsePairF] at h
      match he1 : eatTok .NAME ts with
      | .error e => rw [he1] at h; cases h
      | .ok (nameT, ts1) =>
        rw [he1] at h
        simp only at h
        obtain ⟨hts1, _⟩ := eatTok_ok _ _ _ _ he1
        have hw1 : WFts ts1 := WFts_tail (hts1 ▸ hw)
        match he2 : eatTok .EQUAL ts1 with
        | .error e => rw [he2] at h; cases h
        | .ok (eqT, ts2) =>
          rw [he2] at h
          simp only at h
          obtain ⟨hts2, _⟩ := eatTok_ok _ _ _ _ he2
          have hw2 : WFts ts2 := WFts_tail (hts2 ▸ hw1)
          match hval : parseValueF consts fuel ts2 with
          | .error e => rw [hval] at h; cases h
          | .ok (v, ts3) =>
            rw [hval] at h
            simp only [Except.ok.injEq, Prod.mk.injEq] at h
            obtain ⟨h1, h2⟩ := h
            subst h1
            subst h2
            exact ihv consts ts2 v ts3 hc hw2 hval
    have hvalue : ∀ consts ts v r, GoodC consts → WFts ts →
        parseValueF consts (fuel + 1) ts = .ok (v, r) → GoodV v ∧ WFts r := by
      intro consts ts v r hc hw h
      match ts with
      | [] => cases h
      | t :: ts1 =>
        simp only [parseValueF] at h
        have hwt : WFts ts1 := WFts_tail hw
        cases httype : t.ttype
        case NUMBER =>
          rw [httype] at h
          simp only [Except.ok.injEq, Prod.mk.injEq] at h
          obtain ⟨h1, h2⟩ := h
          subst h1
          subst h2
          exact ⟨⟨by simp [deepNodup], by simp [noQuote]⟩, hwt⟩
        case STRING =>
          rw [httype] at h
          simp only [Except.ok.injEq, Prod.mk.injEq] at h
          obtain ⟨h1, h2⟩ := h
          subst h1
          subst h2
          obtain ⟨l, hl, hv⟩ := WFts_head hw httype
          rw [hv, stripQuotes_quoted l hl]
          refine ⟨⟨by simp [deepNodup], ?_⟩, hwt⟩
          simp only [noQuote, toList_mk, hl]
          simp
        case TRUE =>
          rw [httype] at h
          simp only [Except.ok.injEq, Prod.mk.injEq] at h
          obtain ⟨h1, h2⟩ := h
          subst h1
          subst h2
          exact ⟨⟨by simp [deepNodup], by simp [noQuote]⟩, hwt⟩
        case FALSE =>
          rw [httype] at h
          simp only [Except.ok.injEq, Prod.mk.injEq] at h
          obtain ⟨h1, h2⟩ := h
          subst h1
          subst h2
          exact ⟨⟨by simp [deepNodup], by simp [noQuote]⟩, hwt⟩
        case TABLE =>
          rw [httype] at h
          simp only at h
          match hte : parseTableExprF consts fuel (t :: ts1) with
          | .error e => rw [hte] at h; cases h
          | .ok (ps, r0) =>
            rw [hte] at h
            simp only [Except.ok.injEq, Prod.mk.injEq] at h
            obtain ⟨h1, h2⟩ := h
            subst h1
            subst h2
            exact iht consts (t :: ts1) ps r0 hc hw hte
        case QUESTION =>
          rw [httype] at h
          simp only at h
          match he1 : eatTok .NAME ts1 with
          | .error e => rw [he1] at h; cases h
          | .ok (nameT, ts2) =>
            rw [he1] at h
            simp only at h
            obtain ⟨hts2, _⟩ := eatTok_ok _ _ _ _ he1
            have hw2 : WFts ts2 := WFts_tail (hts2 ▸ hwt)
            match he2 : eatTok .RBRACE ts2 with
            | .error e => rw [he2] at h; cases h
            | .ok (rbT, ts3) =>
              rw [he2] at h
              simp only at h
              obtain ⟨hts3, _⟩ := eatTok_ok _ _ _ _ he2
              have hw3 : WFts ts3 := WFts_tail (hts3 ▸ hw2)
              match hlk : lookupConst consts nameT.value with
              | none => rw [hlk] at h; cases h
              | some v0 =>
                rw [hlk] at h
                simp only [Except.ok.injEq, Prod.mk.injEq] at h
                obtain ⟨h1, h2⟩ := h
                subst h1
                subst h2
                exact ⟨hc _ (lookupConst_mem consts nameT.value _ hlk), hw3⟩
        all_goals (rw [httype] at h; simp only at h; cases h)
    have htable : ∀ consts ts ps r, GoodC consts → WFts ts →
        parseTableExprF consts (fuel + 1) ts = .ok (ps, r) → GoodV (.table ps) ∧ WFts r := by
      intro consts ts ps r hc hw h
      simp only [parseTableExprF] at h
      match he1 : eatTok .TABLE ts with
      | .error e => rw [he1] at h; cases h
      | .ok (t1, ts1) =>
        rw [he1] at h
        simp only at h
        obtain ⟨hts1, _⟩ := eatTok_ok _ _ _ _ he1
        have hw1 : WFts ts1 := WFts_tail (hts1 ▸ hw)
        match he2 : eatTok .LPAREN ts1 with
        | .error e => rw [he2] at h; cases h
        | .ok (t2, ts2) =>
          rw [he2] at h
          simp only at h
          obtain ⟨hts2, _⟩ := eatTok_ok _ _ _ _ he2
          have hw2 : WFts ts2 := WFts_tail (hts2 ▸ hw1)
          match he3 : eatTok .LBRACK ts2 with
          | .error e => rw [he3] at h; cases h
          | .ok (t3, ts3) =>
            rw [he3] at h
            simp only at h
            obtain ⟨hts3, _⟩ := eatTok_ok _ _ _ _ he3
            have hw3 : WFts ts3 := WFts_tail (hts3 ▸ hw2)
            match hps : parsePairsF consts fuel ts3 with
            | .error e => rw [hps] at h; cases h
            | .ok (ps0, ts4) =>
              rw [hps] at h
              simp only at h
              obtain ⟨hgood, hw4⟩ := ihps consts ts3 ps0 ts4 hc hw3 hps
              match he4 : eatTok .RBRACK ts4 with
              | .error e => rw [he4] at h; cases h
              | .ok (t4, ts5) =>
                rw [he4] at h
                simp only at h
                obtain ⟨hts5, _⟩ := eatTok_ok _ _ _ _ he4
                have hw5 : WFts ts5 := WFts_tail (hts5 ▸ hw4)
                match he5 : eatTok .RPAREN ts5 with
                | .error e => rw [he5] at h; cases h
                | .ok (t5, ts6) =>
                  rw [he5] at h
                  simp only [Except.ok.injEq, Prod.mk.injEq] at h
                  obtain ⟨h1, h2⟩ := h
                  subst h1
                  subst h2
                  obtain ⟨hts6, _⟩ := eatTok_ok _ _ _ _ he5
                  exact ⟨hgood, WFts_tail (hts6 ▸ hw5)⟩
    have haux : ∀ consts acc ts ps r, GoodC consts → WFts ts → GoodV (.table acc) →
        parsePairsAuxF consts (fuel + 1) acc ts = .ok (ps, r) → GoodV (.table ps) ∧ WFts r := by
      intro consts acc ts ps r hc hw hacc h
      simp only [parsePairsAuxF] at h
      by_cases hcm : peekT ts = .COMMA
      · rw [if_pos hcm] at h
        match he1 : eatTok .COMMA ts with
        | .error e => rw [he1] at h; cases h
        | .ok (t1, ts1) =>
          rw [he1] at h
          simp only at h
          obtain ⟨hts1, _⟩ := eatTok_ok _ _ _ _ he1
          have hw1 : WFts ts1 := WFts_tail (hts1 ▸ hw)
          match hpf : parsePairF consts fuel ts1 with
          | .error e => rw [hpf] at h; cases h
          | .ok (p, r0) =>
            rw [hpf] at h
            simp only at h
            obtain ⟨hpg, hw0⟩ := ihp consts ts1 p r0 hc hw1 hpf
            by_cases hkm : keyMem p.1 acc = true
            · rw [if_pos hkm] at h; cases h
            · rw [if_neg hkm] at h
              exact ihaux consts (acc ++ [p]) r0 ps r hc hw0
                (goodTable_snoc acc p hacc hpg (by simpa using hkm)) h
      · rw [if_neg hcm] at h
        simp only [Except.ok.injEq, Prod.mk.injEq] at h
        obtain ⟨h1, h2⟩ := h
        subst h1
        subst h2
        exact ⟨hacc, hw⟩
    have hpairs : ∀ consts ts ps r, GoodC consts → WFts ts →
        parsePairsF consts (fuel + 1) ts = .ok (ps, r) → GoodV (.table ps) ∧ WFts r := by
      intro consts ts ps r hc hw h
      simp only [parsePairsF] at h
      by_cases hpn : peekT ts = .NAME
      · rw [if_pos hpn] at h
        match hpf : parsePairF consts fuel ts with
        | .error e => rw [hpf] at h; cases h
        | .ok (p, r0) =>
          rw [hpf] at h
          simp only at h
          obtain ⟨hpg, hw0⟩ := ihp consts ts p r0 hc hw hpf
          exact ihaux consts [p] r0 ps r hc hw0 (goodTable_single p hpg) h
      · rw [if_neg hpn] at h
        simp only [Except.ok.injEq, Prod.mk.injEq] at h
        obtain ⟨h1, h2⟩ := h
        subst h1
        subst h2
        exact ⟨goodTable_nil, hw⟩
    exact ⟨hvalue, htable, hpairs, haux, hpair⟩

/-- A successful constant declaration binds a value satisfying the tree
invariants and leaves a well-formed cursor. -/
theorem parseConstDeclF_good (consts : ConstTable) (fuel : Nat) (ts : List Token)
    (kv : String × Value) (r : List Token) (hc : GoodC consts) (hw : WFts ts)
    (h : parseConstDeclF consts fuel ts = .ok (kv, r)) : GoodV kv.2 ∧ WFts r := by
  match fuel with
  | 0 => cases h
  | fuel + 1 =>
    simp only [parseConstDeclF] at h
    match he1 : eatTok .NAME ts with
    | .error e => rw [he1] at h; cases h
    | .ok (nameT, ts1) =>
      rw [he1] at h
      simp only at h
      obtain ⟨hts1, _⟩ := eatTok_ok _ _ _ _ he1
      have hw1 : WFts ts1 := WFts_tail (hts1 ▸ hw)
      match he2 : eatTok .EQUAL ts1 with
      | .error e => rw [he2] at h; cases h
      | .ok (eqT, ts2) =>
        rw [he2] at h
        simp only at h
        obtain ⟨hts2, _⟩ := eatTok_ok _ _ _ _ he2
        have hw2 : WFts ts2 := WFts_tail (hts2 ▸ hw1)
        match hval : parseValueF consts fuel ts2 with
        | .error e => rw [hval] at h; cases h
        | .ok (v, ts3) =>
          rw [hval] at h
          simp only at h
          obtain ⟨hg, hw3⟩ := (parserGood fuel).1 consts ts2 v ts3 hc hw2 hval
          match he3 : eatTok .SEMI ts3 with
          | .error e => rw [he3] at h; cases h
          | .ok (sT, ts4) =>
            rw [he3] at h
            simp only [Except.ok.injEq, Prod.mk.injEq] at h
            obtain ⟨h1, h2⟩ := h
            subst h1
            subst h2
            obtain ⟨hts4, _⟩ := eatTok_ok _ _ _ _ he3
            exact ⟨hg, WFts_tail (hts4 ▸ hw3)⟩

/-- The declaration loop preserves the invariants of the constant table and
the cursor. -/
theorem parseConfigLoopF_good (fuel : Nat) : ∀ consts ts, GoodC consts → WFts ts →
    GoodC (parseConfigLoopF fuel consts ts).1 ∧ WFts (parseConfigLoopF fuel consts ts).2 := by
  induction fuel with
  | zero => intro consts ts hc hw; exact ⟨hc, hw⟩
  | succ fuel ih =>
    intro consts ts hc hw
    simp only [parseConfigLoopF]
    by_cases hpn : peekT ts = .NAME
    · rw [if_pos hpn]
      match hd : parseConstDeclF consts fuel ts with
      | .error e => exact ⟨hc, hw⟩
      | .ok (kv, r) =>
        simp only
        obtain ⟨hg, hwr⟩ := parseConstDeclF_good consts fuel ts kv r hc hw hd
        refine ih (insertConst consts kv.1 kv.2) r ?_ hwr
        intro x hx
        rcases List.mem_cons.mp hx with rfl | hm
        · exact hg
        · exact hc x hm
    · rw [if_neg hpn]
      exact ⟨hc, hw⟩

/-- A successful whole-config parse returns a root table satisfying the
tree invariants, given lexer-shaped tokens. -/
theorem parseConfigF_good (fuel : Nat) (ts : List Token) (m : List (String × Value))
    (r : List Token) (hw : WFts ts) (h : parseConfigF fuel ts = .ok (m, r)) :
    GoodV (.table m) ∧ WFts r := by
  unfold parseConfigF at h
  obtain ⟨hc1, hw1⟩ := parseConfigLoopF_good fuel [] ts (by intro x hx; cases hx) hw
  exact (parserGood fuel).2.1 _ _ m r hc1 hw1 h

/-- The rendering of a value parses back to exactly that value at any
sufficient budget, whatever follows. -/
def ValOK (consts : ConstTable) (v : Value) : Prop :=
  ∀ fuel rest, needV v ≤ fuel →
    parseValueF consts fuel (valueToks v ++ rest) = .ok (v, rest)

theorem needV_pos (v : Value) : 1 ≤ needV v := by
  cases v <;> simp [needV] <;> omega

theorem needP_pos (ps : List (String × Value)) : 1 ≤ needP ps := by
  cases ps <;> simp [needP] <;> omega

theorem keysNodup_mid (acc : List (String × Value)) (q : String × Value)
    (qs : List (String × Value)) (h : keysNodup (acc ++ q :: qs) = true) :
    keyMem q.1 acc = false := by
  induction acc with
  | nil => simp [keyMem]
  | cons a acc ih =>
    simp only [List.cons_append, keysNodup, List.append_eq, Bool.and_eq_true,
      Bool.not_eq_true'] at h
    rw [keyMem_cons, Bool.or_eq_false_iff]
    refine ⟨?_, ih h.2⟩
    have := h.1
    rw [keyMem_append, Bool.or_eq_false_iff] at this
    have h2 := this.2
    rw [keyMem_cons, Bool.or_eq_false_iff] at h2
    have h3 := h2.1
    rw [beq_eq_false_iff_ne] at h3 ⊢
    exact fun hh => h3 hh.symm

theorem parsePairF_complete (consts : ConstTable) (k : String) (v : Value)
    (rest : List Token) (fuel : Nat) (hok : ValOK consts v)
    (hf : 1 + needV v ≤ fuel) :
    parsePairF consts fuel (pairToks (k, v) ++ rest) = .ok ((k, v), rest) := by
  match fuel with
  | 0 => omega
  | f + 1 =>
    simp only [pairToks, List.cons_append]
    simp only [parsePairF]
    rw [eatTok_cons .NAME ⟨.NAME, k⟩ _ rfl]
    simp only
    rw [eatTok_cons .EQUAL ⟨.EQUAL, "="⟩ _ rfl]
    simp only
    rw [hok f rest (by omega)]

theorem parsePairsAuxF_complete (ps : List (String × Value)) :
    ∀ acc consts rest fuel, (∀ p ∈ ps, ValOK consts p.2) →
    keysNodup (acc ++ ps) = true → needP ps ≤ fuel → peekT rest ≠ .COMMA →
    parsePairsAuxF consts fuel acc (pairsTailToks ps ++ rest) = .ok (acc ++ ps, rest) := by
  induction ps with
  | nil =>
    intro acc consts rest fuel _ _ hf hstop
    match fuel with
    | 0 => simp [needP] at hf
    | f + 1 =>
      simp only [pairsTailToks, List.nil_append, parsePairsAuxF]
      rw [if_neg hstop]
      simp
  | cons p ps ih =>
    intro acc consts rest fuel hval hnd hf hstop
    simp only [needP] at hf
    match fuel with
    | 0 => omega
    | f + 1 =>
      simp only [pairsTailToks, List.cons_append, parsePairsAuxF]
      rw [if_pos (by simp [peekT])]
      rw [eatTok_cons .COMMA ⟨.COMMA, ","⟩ _ rfl]
      simp only
      rw [List.append_assoc]
      rw [parsePairF_complete consts p.1 p.2 (pairsTailToks ps ++ rest) f
        (hval p (List.mem_cons_self p ps)) (by omega)]
      simp only
      rw [if_neg (by simp [keysNodup_mid acc p ps hnd])]
      have hnd2 : keysNodup ((acc ++ [p]) ++ ps) = true := by
        rw [List.append_assoc]
        simpa using hnd
      have := ih (acc ++ [p]) consts rest f
        (fun q hq => hval q (List.mem_cons_of_mem p hq)) hnd2 (by omega) hstop
      rw [show ((p.1, p.2) : String × Value) = p from rfl] at *
      rw [this]
      rw [List.append_assoc]
      simp

theorem parsePairsF_complete (ps : List (String × Value)) (consts : ConstTable)
    (rest : List Token) (fuel : Nat) (hval : ∀ p ∈ ps, ValOK consts p.2)
    (hnd : keysNodup ps = true) (hf : needP ps ≤ fuel)
    (hs1 : peekT rest ≠ .NAME) (hs2 : peekT rest ≠ .COMMA) :
    parsePairsF consts fuel (pairsToks ps ++ rest) = .ok (ps, rest) := by
  match ps with
  | [] =>
    match fuel with
    | 0 => simp [needP] at hf
    | f + 1 =>
      simp only [pairsToks, List.nil_append, parsePairsF]
      rw [if_neg hs1]
  | p :: ps2 =>
    obtain ⟨k, v⟩ := p
    simp only [needP] at hf
    match fuel with
    | 0 => omega
    | f + 1 =>
      simp only [pairsToks, parsePairsF]
      rw [if_pos (by simp [pairToks, peekT])]
      rw [List.append_assoc]
      rw [parsePairF_complete consts k v (pairsTailToks ps2 ++ rest) f
        (hval (k, v) (List.mem_cons_self (k, v) ps2)) (by omega)]
      simp only
      have := parsePairsAuxF_complete ps2 [(k, v)] consts rest f
        (fun q hq => hval q (List.mem_cons_of_mem (k, v) hq))
        (by simpa using hnd) (by omega) hs2
      rw [this]
      simp

theorem sizeOf_value_pos (v : Value) : 1 ≤ sizeOf v := by
  cases v <;> simp

theorem sizeOf_mem_pair (ps : List (String × Value)) (p : String × Value) (hp : p ∈ ps) :
    sizeOf p.2 < sizeOf (Value.table ps) := by
  have h1 : sizeOf p < sizeOf ps := List.sizeOf_lt_of_mem hp
  have h2 : sizeOf p = 1 + sizeOf p.1 + sizeOf p.2 := by
    cases p
    simp
  have h3 : sizeOf (Value.table ps) = 1 + sizeOf ps := by simp
  omega

/-- Completeness of `parse_value` on rendered values:ParsE the canonical
token text of any invariant-satisfying value and get that value back. -/
theorem valueComplete : ∀ n v, sizeOf v ≤ n → GoodV v → ∀ consts, ValOK consts v := by
  intro n
  induction n with
  | zero =>
    intro v hs
    have := sizeOf_value_pos v
    omega
  | succ n ih =>
    intro v hs hg consts
    match v with
    | .int k =>
      intro fuel rest hf
      simp only [needV] at hf
      match fuel with
      | 0 => omega
      | f + 1 =>
        simp only [valueToks, List.cons_append, List.nil_append, parseValueF]
        simp only [toList_mk, natOfDigits_natDigits]
    | .str s =>
      intro fuel rest hf
      simp only [needV] at hf
      match fuel with
      | 0 => omega
      | f + 1 =>
        have hq : s.toList.contains '"' = false := by
          have := hg.2
          simp only [noQuote, Bool.not_eq_true'] at this
          exact this
        simp only [valueToks, List.cons_append, List.nil_append, parseValueF]
        rw [stripQuotes_quoted s.toList hq]
        rfl
    | .bool b =>
      intro fuel rest hf
      simp only [needV] at hf
      match fuel with
      | 0 => omega
      | f + 1 =>
        cases b <;> simp only [valueToks, List.cons_append, List.nil_append, parseValueF]
    | .table ps =>
      intro fuel rest hf
      simp only [needV] at hf
      match fuel with
      | 0 => omega
      | f + 1 =>
        simp only [valueToks, List.cons_append, parseValueF]
        match f, hf with
        | 0, hf => omega
        | g + 1, hf =>
          simp only [parseTableExprF]
          rw [eatTok_cons .TABLE ⟨.TABLE, "table"⟩ _ rfl]
          simp only
          rw [eatTok_cons .LPAREN ⟨.LPAREN, "("⟩ _ rfl]
          simp only
          rw [eatTok_cons .LBRACK ⟨.LBRACK, "["⟩ _ rfl]
          simp only
          rw [List.append_assoc]
          simp only [List.cons_append, List.nil_append]
          rw [parsePairsF_complete ps consts (⟨.RBRACK, "]"⟩ :: ⟨.RPAREN, ")"⟩ :: rest) g
            (fun p hp => ih p.2 (by
              have hmem := sizeOf_mem_pair ps p hp
              have hs2 := hs
              simp only [Value.table.sizeOf_spec] at hmem hs2 ⊢
              omega) (goodTable_mem ps hg p hp) consts)
            (goodTable_keys ps hg) (by omega) (by simp [peekT]) (by simp [peekT])]
          simp only
          rw [eatTok_cons .RBRACK ⟨.RBRACK, "]"⟩ _ rfl]
          simp only
          rw [eatTok_cons .RPAREN ⟨.RPAREN, ")"⟩ _ rfl]

theorem parseTableExprF_head (consts : ConstTable) (fuel : Nat) (ts : List Token)
    (ps : List (String × Value)) (r : List Token)
    (h : parseTableExprF consts fuel ts = .ok (ps, r)) :
    ∃ t1 ts1, ts = t1 :: ts1 ∧ t1.ttype = .TABLE := by
  match fuel with
  | 0 => cases h
  | fuel + 1 =>
    simp only [parseTableExprF] at h
    match he1 : eatTok .TABLE ts with
    | .error e => rw [he1] at h; cases h
    | .ok (t1, ts1) =>
      obtain ⟨hts, htt⟩ := eatTok_ok _ _ _ _ he1
      exact ⟨t1, ts1, hts, htt⟩

theorem parseConstDeclF_head (consts : ConstTable) (fuel : Nat) (ts : List Token)
    (kv : String × Value) (r : List Token)
    (h : parseConstDeclF consts fuel ts = .ok (kv, r)) :
    ∃ t1 ts1, ts = t1 :: ts1 ∧ t1.ttype = .NAME := by
  match fuel with
  | 0 => cases h
  | fuel + 1 =>
    simp only [parseConstDeclF] at h
    match he1 : eatTok .NAME ts with
    | .error e => rw [he1] at h; cases h
    | .ok (t1, ts1) =>
      obtain ⟨hts, htt⟩ := eatTok_ok _ _ _ _ he1
      exact ⟨t1, ts1, hts, htt⟩

/-- Prefix determinism of the mutual parser: a success consumed a prefix of
the cursor, and rerunning on that prefix ahead of any other continuation
gives the same result.  `parse_pairs` and its comma loop stop on a one-token
lookahead, so there the continuation must start with the same token kind. -/
theorem parserPre (fuel : Nat) :
    (∀ consts ts v r, parseValueF consts fuel ts = .ok (v, r) →
      ∃ pre, pre ≠ [] ∧ ts = pre ++ r ∧
        ∀ r2, parseValueF consts fuel (pre ++ r2) = .ok (v, r2))
    ∧ (∀ consts ts ps r, parseTableExprF consts fuel ts = .ok (ps, r) →
      ∃ pre, pre ≠ [] ∧ ts = pre ++ r ∧
        ∀ r2, parseTableExprF consts fuel (pre ++ r2) = .ok (ps, r2))
    ∧ (∀ consts ts ps r, parsePairsF consts fuel ts = .ok (ps, r) →
      ∃ pre, ts = pre ++ r ∧ ∀ r2, peekT r2 = peekT r →
        parsePairsF consts fuel (pre ++ r2) = .ok (ps, r2))
    ∧ (∀ consts acc ts ps r, parsePairsAuxF consts fuel acc ts = .ok (ps, r) →
      ∃ pre, ts = pre ++ r ∧ ∀ r2, peekT r2 = peekT r →
        parsePairsAuxF consts fuel acc (pre ++ r2) = .ok (ps, r2))
    ∧ (∀ consts ts p r, parsePairF consts fuel ts = .ok (p, r) →
      ∃ pre, pre ≠ [] ∧ ts = pre ++ r ∧
        ∀ r2, parsePairF consts fuel (pre ++ r2) = .ok (p, r2)) := by
  induction fuel with
  | zero =>
    refine ⟨?_, ?_, ?_, ?_, ?_⟩
    · intro consts ts v r h; cases h
    · intro consts ts ps r h; cases h
    · intro consts ts ps r h; cases h
    · intro consts acc ts ps r h; cases h
    · intro consts ts p r h; cases h
  | succ fuel ih =>
    obtain ⟨ihv, iht, ihps, ihaux, ihp⟩ := ih
    have hpair : ∀ consts ts p r, parsePairF consts (fuel + 1) ts = .ok (p, r) →
        ∃ pre, pre ≠ [] ∧ ts = pre ++ r ∧
          ∀ r2, parsePairF consts (fuel + 1) (pre ++ r2) = .ok (p, r2) := by
      intro consts ts p r h
      simp only [parsePairF] at h
      match he1 : eatTok .NAME ts with
      | .error e => rw [he1] at h; cases h
      | .ok (nameT, ts1) =>
        rw [he1] at h
        simp only at h
        obtain ⟨hts1, hty1⟩ := eatTok_ok _ _ _ _ he1
        match he2 : eatTok .EQUAL ts1 with
        | .error e => rw [he2] at h; cases h
        | .ok (eqT, ts2) =>
          rw [he2] at h
          simp only at h
          obtain ⟨hts2, hty2⟩ := eatTok_ok _ _ _ _ he2
          match hval : parseValueF consts fuel ts2 with
          | .error e => rw [hval] at h; cases h
          | .ok (v, ts3) =>
            rw [hval] at h
            simp only [Except.ok.injEq, Prod.mk.injEq] at h
            obtain ⟨h1, h2⟩ := h
            subst h1
            subst h2
            obtain ⟨preV, hpne, hpeq, hpall⟩ := ihv consts ts2 v ts3 hval
            refine ⟨nameT :: eqT :: preV, by simp, ?_, ?_⟩
            · rw [hts1, hts2, hpeq]
              simp
            · intro r2
              simp only [List.cons_append, parsePairF]
              rw [eatTok_cons .NAME nameT _ hty1]
              simp only
              rw [eatTok_cons .EQUAL eqT _ hty2]
              simp only
              rw [hpall r2]
    have hvalue : ∀ consts ts v r, parseValueF consts (fuel + 1) ts = .ok (v, r) →
        ∃ pre, pre ≠ [] ∧ ts = pre ++ r ∧
          ∀ r2, parseValueF consts (fuel + 1) (pre ++ r2) = .ok (v, r2) := by
      intro consts ts v r h
      match ts with
      | [] => cases h
      | t :: ts1 =>
        simp only [parseValueF] at h
        cases httype : t.ttype
        case NUMBER =>
          rw [httype] at h
          simp only [Except.ok.injEq, Prod.mk.injEq] at h
          obtain ⟨h1, h2⟩ := h
          subst h1
          subst h2
          refine ⟨[t], by simp, by simp, ?_⟩
          intro r2
          simp only [List.cons_append, List.nil_append, parseValueF, httype]
        case STRING =>
          rw [httype] at h
          simp only [Except.ok.injEq, Prod.mk.injEq] at h
          obtain ⟨h1, h2⟩ := h
          subst h1
          subst h2
          refine ⟨[t], by simp, by simp, ?_⟩
          intro r2
          simp only [List.cons_append, List.nil_append, parseValueF, httype]
        case TRUE =>
          rw [httype] at h
          simp only [Except.ok.injEq, Prod.mk.injEq] at h
          obtain ⟨h1, h2⟩ := h
          subst h1
          subst h2
          refine ⟨[t], by simp, by simp, ?_⟩
          intro r2
          simp only [List.cons_append, List.nil_append, parseValueF, httype]
        case FALSE =>
          rw [httype] at h
          simp only [Except.ok.injEq, Prod.mk.injEq] at h
          obtain ⟨h1, h2⟩ := h
          subst h1
          subst h2
          refine ⟨[t], by simp, by simp, ?_⟩
          intro r2
          simp only [List.cons_append, List.nil_append, parseValueF, httype]
        case TABLE =>
          rw [httype] at h
          simp only at h
          match hte : parseTableExprF consts fuel (t :: ts1) with
          | .error e => rw [hte] at h; cases h
          | .ok (ps, r0) =>
            rw [hte] at h
            simp only [Except.ok.injEq, Prod.mk.injEq] at h
            obtain ⟨h1, h2⟩ := h
            subst h1
            subst h2
            obtain ⟨preT, htne, hteq, htall⟩ := iht consts (t :: ts1) ps r0 hte
            rcases preT with _ | ⟨q, preT2⟩
            · exact absurd rfl htne
            · have h12 : t = q ∧ ts1 = preT2 ++ r0 := by
                simpa using hteq
              obtain ⟨hq, hts⟩ := h12
              subst hq
              refine ⟨t :: preT2, by simp, by rw [hts]; simp, ?_⟩
              intro r2
              simp only [List.cons_append, parseValueF, httype]
              have := htall r2
              simp only [List.cons_append] at this
              rw [this]
        case QUESTION =>
          rw [httype] at h
          simp only at h
          match he1 : eatTok .NAME ts1 with
          | .error e => rw [he1] at h; cases h
          | .ok (nameT, ts2) =>
            rw [he1] at h
            simp only at h
            obtain ⟨hts2, hty2⟩ := eatTok_ok _ _ _ _ he1
            match he2 : eatTok .RBRACE ts2 with
            | .error e => rw [he2] at h; cases h
            | .ok (rbT, ts3) =>
              rw [he2] at h
              simp only at h
              obtain ⟨hts3, hty3⟩ := eatTok_ok _ _ _ _ he2
              match hlk : lookupConst consts nameT.value with
              | none => rw [hlk] at h; cases h
              | some v0 =>
                rw [hlk] at h
                simp only [Except.ok.injEq, Prod.mk.injEq] at h
                obtain ⟨h1, h2⟩ := h
                subst h1
                subst h2
                refine ⟨[t, nameT, rbT], by simp, by rw [hts2, hts3]; simp, ?_⟩
                intro r2
                simp only [List.cons_append, List.nil_append, parseValueF, httype]
                rw [eatTok_cons .NAME nameT _ hty2]
                simp only
                rw [eatTok_cons .RBRACE rbT _ hty3]
                simp only
                rw [hlk]
        all_goals (rw [httype] at h; simp only at h; cases h)
    have htable : ∀ consts ts ps r, parseTableExprF consts (fuel + 1) ts = .ok (ps, r) →
        ∃ pre, pre ≠ [] ∧ ts = pre ++ r ∧
          ∀ r2, parseTableExprF consts (fuel + 1) (pre ++ r2) = .ok (ps, r2) := by
      intro consts ts ps r h
      simp only [parseTableExprF] at h
      match he1 : eatTok .TABLE ts with
      | .error e => rw [he1] at h; cases h
      | .ok (t1, ts1) =>
        rw [he1] at h
        simp only at h
        obtain ⟨hts1, hty1⟩ := eatTok_ok _ _ _ _ he1
        match he2 : eatTok .LPAREN ts1 with
        | .error e => rw [he2] at h; cases h
        | .ok (t2, ts2) =>
          rw [he2] at h
          simp only at h
          obtain ⟨hts2, hty2⟩ := eatTok_ok _ _ _ _ he2
          match he3 : eatTok .LBRACK ts2 with
          | .error e => rw [he3] at h; cases h
          | .ok (t3, ts3) =>
            rw [he3] at h
            simp only at h
            obtain ⟨hts3, hty3⟩ := eatTok_ok _ _ _ _ he3
            match hps : parsePairsF consts fuel ts3 with
            | .error e => rw [hps] at h; cases h
            | .ok (ps0, ts4) =>
              rw [hps] at h
              simp only at h
              obtain ⟨preP, hpeq, hpall⟩ := ihps consts ts3 ps0 ts4 hps
              match he4 : eatTok .RBRACK ts4 with
              | .error e => rw [he4] at h; cases h
              | .ok (t4, ts5) =>
                rw [he4] at h
                simp only at h
                obtain ⟨hts5, hty4⟩ := eatTok_ok _ _ _ _ he4
                match he5 : eatTok .RPAREN ts5 with
                | .error e => rw [he5] at h; cases h
                | .ok (t5, ts6) =>
                  rw [he5] at h
                  simp only [Except.ok.injEq, Prod.mk.injEq] at h
                  obtain ⟨h1, h2⟩ := h
                  subst h1
                  subst h2
                  obtain ⟨hts6, hty5⟩ := eatTok_ok _ _ _ _ he5
                  refine ⟨t1 :: t2 :: t3 :: (preP ++ [t4, t5]), by simp, ?_, ?_⟩
                  · rw [hts1, hts2, hts3, hpeq, hts5, hts6]
                    simp
                  · intro r2
                    simp only [List.cons_append, parseTableExprF]
                    rw [eatTok_cons .TABLE t1 _ hty1]
                    simp only
                    rw [eatTok_cons .LPAREN t2 _ hty2]
                    simp only
                    rw [eatTok_cons .LBRACK t3 _ hty3]
                    simp only
                    rw [List.append_assoc]
                    simp only [List.cons_append, List.nil_append]
                    rw [hpall (t4 :: t5 :: r2) (by rw [hts5]; simp [peekT])]
                    simp only
                    rw [eatTok_cons .RBRACK t4 _ hty4]
                    simp only
                    rw [eatTok_cons .RPAREN t5 _ hty5]
    have haux : ∀ consts acc ts ps r, parsePairsAuxF consts (fuel + 1) acc ts = .ok (ps, r) →
        ∃ pre, ts = pre ++ r ∧ ∀ r2, peekT r2 = peekT r →
          parsePairsAuxF consts (fuel + 1) acc (pre ++ r2) = .ok (ps, r2) := by
      intro consts acc ts ps r h
      simp only [parsePairsAuxF] at h
      by_cases hcm : peekT ts = .COMMA
      · rw [if_pos hcm] at h
        match he1 : eatTok .COMMA ts with
        | .error e => rw [he1] at h; cases h
        | .ok (c1, ts1) =>
          rw [he1] at h
          simp only at h
          obtain ⟨hts1, hty1⟩ := eatTok_ok _ _ _ _ he1
          match hpf : parsePairF consts fuel ts1 with
          | .error e => rw [hpf] at h; cases h
          | .ok (p, r0) =>
            rw [hpf] at h
            simp only at h
            obtain ⟨preQ, _, hqeq, hqall⟩ := ihp consts ts1 p r0 hpf
            by_cases hkm : keyMem p.1 acc = true
            · rw [if_pos hkm] at h; cases h
            · rw [if_neg hkm] at h
              obtain ⟨preA, haeq, haall⟩ := ihaux consts (acc ++ [p]) r0 ps r h
              refine ⟨c1 :: (preQ ++ preA), ?_, ?_⟩
              · rw [hts1, hqeq, haeq]
                simp
              · intro r2 hr2
                simp only [List.cons_append, parsePairsAuxF]
                rw [if_pos (by rw [hts1] at hcm; simpa [peekT] using hcm)]
                rw [eatTok_cons .COMMA c1 _ hty1]
                simp only
                rw [List.append_assoc]
                rw [hqall (preA ++ r2)]
                simp only
                rw [if_neg hkm]
                rw [haall r2 hr2]
      · rw [if_neg hcm] at h
        simp only [Except.ok.injEq, Prod.mk.injEq] at h
        obtain ⟨h1, h2⟩ := h
        subst h1
        subst h2
        refine ⟨[], by simp, ?_⟩
        intro r2 hr2
        simp only [List.nil_append, parsePairsAuxF]
        rw [if_neg (by rw [hr2]; exact hcm)]
    have hpairs : ∀ consts ts ps r, parsePairsF consts (fuel + 1) ts = .ok (ps, r) →
        ∃ pre, ts = pre ++ r ∧ ∀ r2, peekT r2 = peekT r →
          parsePairsF consts (fuel + 1) (pre ++ r2) = .ok (ps, r2) := by
      intro consts ts ps r h
      simp only [parsePairsF] at h
      by_cases hpn : peekT ts = .NAME
      · rw [if_pos hpn] at h
        match hpf : parsePairF consts fuel ts with
        | .error e => rw [hpf] at h; cases h
        | .ok (p, r0) =>
          rw [hpf] at h
          simp only at h
          obtain ⟨preQ, hqne, hqeq, hqall⟩ := ihp consts ts p r0 hpf
          obtain ⟨preA, haeq, haall⟩ := ihaux consts [p] r0 ps r h
          refine ⟨preQ ++ preA, ?_, ?_⟩
          · rw [hqeq, haeq]
            simp
          · intro r2 hr2
            simp only [parsePairsF]
            rw [if_pos (by
              match preQ, hqne with
              | q :: preQ2, _ =>
                rw [hqeq] at hpn
                simpa [peekT] using hpn)]
            rw [List.append_assoc]
            rw [hqall (preA ++ r2)]
            simp only
            rw [haall r2 hr2]
      · rw [if_neg hpn] at h
        simp only [Except.ok.injEq, Prod.mk.injEq] at h
        obtain ⟨h1, h2⟩ := h
        subst h1
        subst h2
        refine ⟨[], by simp, ?_⟩
        intro r2 hr2
        simp only [List.nil_append, parsePairsF]
        rw [if_neg (by rw [hr2]; exact hpn)]
    exact ⟨hvalue, htable, hpairs, haux, hpair⟩

/-- Prefix determinism of a constant declaration. -/
theorem parseConstDeclPre (consts : ConstTable) (fuel : Nat) (ts : List Token)
    (kv : String × Value) (r : List Token)
    (h : parseConstDeclF consts fuel ts = .ok (kv, r)) :
    ∃ pre, pre ≠ [] ∧ ts = pre ++ r ∧
      ∀ r2, parseConstDeclF consts fuel (pre ++ r2) = .ok (kv, r2) := by
  match fuel with
  | 0 => cases h
  | fuel + 1 =>
    simp only [parseConstDeclF] at h
    match he1 : eatTok .NAME ts with
    | .error e => rw [he1] at h; cases h
    | .ok (nameT, ts1) =>
      rw [he1] at h
      simp only at h
      obtain ⟨hts1, hty1⟩ := eatTok_ok _ _ _ _ he1
      match he2 : eatTok .EQUAL ts1 with
      | .error e => rw [he2] at h; cases h
      | .ok (eqT, ts2) =>
        rw [he2] at h
        simp only at h
        obtain ⟨hts2, hty2⟩ := eatTok_ok _ _ _ _ he2
        match hval : parseValueF consts fuel ts2 with
        | .error e => rw [hval] at h; cases h
        | .ok (v, ts3) =>
          rw [hval] at h
          simp only at h
          match he3 : eatTok .SEMI ts3 with
          | .error e => rw [he3] at h; cases h
          | .ok (sT, ts4) =>
            rw [he3] at h
            simp only [Except.ok.injEq, Prod.mk.injEq] at h
            obtain ⟨h1, h2⟩ := h
            subst h1
            subst h2
            obtain ⟨hts4, hty3⟩ := eatTok_ok _ _ _ _ he3
            obtain ⟨preV, hvne, hveq, hvall⟩ := (parserPre fuel).1 consts ts2 v ts3 hval
            refine ⟨nameT :: eqT :: (preV ++ [sT]), by simp, ?_, ?_⟩
            · rw [hts1, hts2, hveq, hts4]
              simp
            · intro r2
              simp only [List.cons_append, parseConstDeclF]
              rw [eatTok_cons .NAME nameT _ hty1]
              simp only
              rw [eatTok_cons .EQUAL eqT _ hty2]
              simp only
              rw [List.append_assoc]
              simp only [List.cons_append, List.nil_append]
              rw [hvall (sT :: r2)]
              simp only
              rw [eatTok_cons .SEMI sT _ hty3]

/-- Prefix determinism of the declaration loop composed with the root table
parse: on a successful whole parse, everything examined lies in the prefix
ahead of the final remainder, which may be replaced arbitrarily. -/
theorem parseConfigLoopPre (lf : Nat) : ∀ consts ts c1 ts1 tf m rfin,
    parseConfigLoopF lf consts ts = (c1, ts1) →
    parseTableExprF c1 tf ts1 = .ok (m, rfin) →
    ∃ pre, ts = pre ++ rfin ∧ ∀ r2,
      parseTableExprF (parseConfigLoopF lf consts (pre ++ r2)).1 tf
        (parseConfigLoopF lf consts (pre ++ r2)).2 = .ok (m, r2) := by
  induction lf with
  | zero =>
    intro consts ts c1 ts1 tf m rfin hl ht
    simp only [parseConfigLoopF, Prod.mk.injEq] at hl
    obtain ⟨h1, h2⟩ := hl
    subst h1
    subst h2
    obtain ⟨pre, hne, heq, hall⟩ := (parserPre tf).2.1 _ _ m rfin ht
    refine ⟨pre, heq, ?_⟩
    intro r2
    simp only [parseConfigLoopF]
    exact hall r2
  | succ lf ih =>
    intro consts ts c1 ts1 tf m rfin hl ht
    simp only [parseConfigLoopF] at hl
    by_cases hpn : peekT ts = .NAME
    · rw [if_pos hpn] at hl
      match hd : parseConstDeclF consts lf ts with
      | .ok (kv, rr) =>
        rw [hd] at hl
        simp only at hl
        obtain ⟨preR, hreq, hrall⟩ :=
          ih (insertConst consts kv.1 kv.2) rr c1 ts1 tf m rfin hl ht
        obtain ⟨preD, hdne, hdeq, hdall⟩ := parseConstDeclPre consts lf ts kv rr hd
        obtain ⟨t1, tsx, htsx, htt⟩ := parseConstDeclF_head consts lf ts kv rr hd
        refine ⟨preD ++ preR, by rw [hdeq, hreq]; simp, ?_⟩
        intro r2
        have hpk : peekT ((preD ++ preR) ++ r2) = .NAME := by
          rcases preD with _ | ⟨q, preD2⟩
          · exact absurd rfl hdne
          · have hq : q = t1 := by
              rw [htsx] at hdeq
              injection hdeq with hh _
              exact hh.symm
            subst hq
            simp [peekT, htt]
        simp only [parseConfigLoopF]
        rw [hpk, if_pos rfl]
        rw [List.append_assoc]
        rw [hdall (preR ++ r2)]
        simp only
        exact hrall r2
      | .error e =>
        rw [hd] at hl
        simp only [Prod.mk.injEq] at hl
        obtain ⟨h1, h2⟩ := hl
        subst h1
        subst h2
        obtain ⟨t1, tsx, htsx, htt⟩ := parseTableExprF_head _ tf _ m rfin ht
        rw [htsx] at hpn
        simp [peekT, htt] at hpn
    · rw [if_neg hpn] at hl
      simp only [Prod.mk.injEq] at hl
      obtain ⟨h1, h2⟩ := hl
      subst h1
      subst h2
      obtain ⟨pre, hne, heq, hall⟩ := (parserPre tf).2.1 _ _ m rfin ht
      obtain ⟨t1, tsx, htsx, htt⟩ := parseTableExprF_head _ tf _ m rfin ht
      refine ⟨pre, heq, ?_⟩
      intro r2
      have hpk : peekT (pre ++ r2) ≠ .NAME := by
        rcases pre with _ | ⟨q, pre2⟩
        · exact absurd rfl hne
        · have hq : q = t1 := by
            rw [htsx] at heq
            injection heq with hh _
            exact hh.symm
          subst hq
          simp [peekT, htt]
      simp only [parseConfigLoopF]
      rw [if_neg hpk]
      exact hall r2

/-- Prefix determinism of the whole config parse: the returned remainder is
the unconsumed suffix of the token list and its contents never influence
the parse. -/
theorem parseConfigF_pre (fuel : Nat) (ts : List Token) (m : List (String × Value))
    (r : List Token) (h : parseConfigF fuel ts = .ok (m, r)) :
    ∃ pre, ts = pre ++ r ∧ ∀ r2, parseConfigF fuel (pre ++ r2) = .ok (m, r2) := by
  unfold parseConfigF at h ⊢
  exact parseConfigLoopPre fuel [] ts (parseConfigLoopF fuel [] ts).1
    (parseConfigLoopF fuel [] ts).2 fuel m r rfl h

/-! ## Claims -/

/-- Claim C1 counterexample: for the source text `tru<##>e`, tokenizing
after comment removal gives the single keyword token `true`, while
tokenizing the text with the comment region replaced by one space gives two
name tokens `tru` and `e`; removal is therefore not equivalent to
replacement by a single space. -/
theorem claim_C1_counterexample :
    tokenize (removeComments "tru<##>e".toList) ≠ tokenize "tru e".toList := by
  have h : removeComments "tru<##>e".toList = "true".toList := by
    simp [removeComments, dropToClose]
  rw [h]
  decide

/-- Claim C1 (amended): a comment region `<# body #>` contributes nothing
to the token stream relative to deletion of the region — the stripper
removes it and replaces it by nothing (not by a space): stripping a text
containing such a region yields the prefix followed by the stripped
remainder, so both sides tokenize identically.  (Replacement by one space
can differ, since deletion can fuse adjacent lexemes.) -/
theorem claim_C1 (p c s : List Char) (hp : hasOpen p = false) (hc : hasClose c = false) :
    removeComments (p ++ '<' :: '#' :: (c ++ '#' :: '>' :: s)) = p ++ removeComments s
    ∧ tokenize (removeComments (p ++ '<' :: '#' :: (c ++ '#' :: '>' :: s))) =
        tokenize (p ++ removeComments s) := by
  have key : removeComments (p ++ '<' :: '#' :: (c ++ '#' :: '>' :: s)) =
      p ++ removeComments s := by
    rw [removeComments_copy p ('<' :: '#' :: (c ++ '#' :: '>' :: s))
      (hasOpen_push p '<' hp (by decide))]
    have h2 : removeComments ('<' :: '#' :: (c ++ '#' :: '>' :: s)) = removeComments s := by
      have hcnd : (('<' : Char) == '<' && ('#' : Char) == '#') = true := by decide
      simp only [removeComments, hcnd, if_true]
      split
      · next r2 hsome =>
        rw [dropToClose_finds c s hc] at hsome
        injection hsome with hsome
        rw [hsome]
      · next hnone =>
        rw [dropToClose_finds c s hc] at hnone
        cases hnone
    rw [h2]
  exact ⟨key, by rw [key]⟩

theorem claim_C1_witness :
    hasOpen "a ".toList = false ∧ hasClose " note ".toList = false ∧
    (removeComments ("a ".toList ++ '<' :: '#' :: (" note ".toList ++ '#' :: '>' :: " b".toList)) =
        "a ".toList ++ removeComments " b".toList
      ∧ tokenize (removeComments ("a ".toList ++ '<' :: '#' ::
          (" note ".toList ++ '#' :: '>' :: " b".toList))) =
        tokenize ("a ".toList ++ removeComments " b".toList)) :=
  ⟨by decide, by decide, claim_C1 "a ".toList " note ".toList " b".toList
    (by decide) (by decide)⟩

/-- Claim C2 counterexample: on the text `<# secret`, whose opening marker
is never closed, the stripper removes nothing at all — the claim says it
should remove everything from the marker to end of input, which would
leave the empty text. -/
theorem claim_C2_counterexample :
    removeComments "<# secret".toList = "<# secret".toList
    ∧ removeComments "<# secret".toList ≠ [] := by
  have h : removeComments "<# secret".toList = "<# secret".toList := by
    simp [removeComments, dropToClose]
  exact ⟨h, by rw [h]; decide⟩

/-- Claim C2 (amended): an opening marker with no matching closing marker
is not removed at all: on any text containing no closing marker `#>` the
stripper is the identity, so the text after an unterminated `<#` does
reach the lexer (where the stray `<` then fails tokenization). -/
theorem claim_C2 (cs : List Char) (h : hasClose cs = false) :
    removeComments cs = cs :=
  removeComments_id cs h

theorem claim_C2_witness :
    hasClose "<# secret more".toList = false ∧
    removeComments "<# secret more".toList = "<# secret more".toList :=
  ⟨by decide, claim_C2 "<# secret more".toList (by decide)⟩

/-- Claim C3 (code evaluated at the failing inputs): the lexer's ordered
alternation tries the reserved-word patterns `table`, `true`, `false`
before the identifier pattern and without any boundary check, so an
identifier that strictly extends a reserved word is split: `truex` lexes
as `true` + `x`, `tabley` as `table` + `y`, `falsey` as `false` + `y` —
not as single name tokens as the specification requires. -/
theorem claim_C3 :
    tokenize "truex".toList =
      some [⟨.TRUE, "true"⟩, ⟨.NAME, "x"⟩, ⟨.EOF, ""⟩]
    ∧ tokenize "tabley".toList =
      some [⟨.TABLE, "table"⟩, ⟨.NAME, "y"⟩, ⟨.EOF, ""⟩]
    ∧ tokenize "falsey".toList =
      some [⟨.FALSE, "false"⟩, ⟨.NAME, "y"⟩, ⟨.EOF, ""⟩] := by
  exact ⟨by decide, by decide, by decide⟩

/-- Claim C4 counterexample: the whole pipeline accepts `table([]) x`
although the name token `x` trails the root table expression; the parse
succeeds and simply returns the trailing tokens unconsumed, instead of
failing with a parse error as the claim states. -/
theorem claim_C4_counterexample :
    runPipeline "table([]) x" =
      some (.ok ([], [⟨.NAME, "x"⟩, ⟨.EOF, ""⟩])) := by
  unfold runPipeline
  rw [removeComments_id _ (by decide)]
  rfl

/-- Claim C4 (amended): the parser does not require the token stream to be
exhausted.  A successful parse consumed only a prefix of the stream and
returns everything after the root table expression unconsumed; moreover
the tokens of that remainder are never examined — replacing them by any
other continuation yields the same root table. -/
theorem claim_C4 (fuel : Nat) (ts : List Token) (m : List (String × Value))
    (r : List Token) (h : parseConfigF fuel ts = .ok (m, r)) :
    ∃ pre, ts = pre ++ r ∧ ∀ r2, parseConfigF fuel (pre ++ r2) = .ok (m, r2) :=
  parseConfigF_pre fuel ts m r h

theorem claim_C4_witness :
    ∃ pre, [⟨TokT.TABLE, "table"⟩, ⟨TokT.LPAREN, "("⟩, ⟨TokT.LBRACK, "["⟩,
        ⟨TokT.RBRACK, "]"⟩, ⟨TokT.RPAREN, ")"⟩, ⟨TokT.NAME, "x"⟩, ⟨TokT.EOF, ""⟩] =
      pre ++ [⟨TokT.NAME, "x"⟩, ⟨TokT.EOF, ""⟩] ∧
    ∀ r2, parseConfigF 12 (pre ++ r2) = .ok ([], r2) :=
  claim_C4 12 _ [] [⟨TokT.NAME, "x"⟩, ⟨TokT.EOF, ""⟩] rfl

/-- Claim C5: duplicate keys are fatal, never silently overwritten.  Every
table in the tree returned by a successful whole parse of lexer output has
pairwise-distinct keys; and on the canonical duplicate-key input the whole
pipeline fails with the duplicate-key parse error, raised for the second
occurrence of the key. -/
theorem claim_C5 :
    (∀ cs ts fuel m r, tokenize cs = some ts → parseConfigF fuel ts = .ok (m, r) →
      deepNodup (.table m) = true)
    ∧ runPipeline "table([a = 1, a = 2])" = some (.error (.dupKey "a")) := by
  constructor
  · intro cs ts fuel m r htok hp
    exact (parseConfigF_good fuel ts m r (tokenizeF_wf (cs.length + 1) cs ts htok) hp).1.1
  · unfold runPipeline
    rw [removeComments_id _ (by decide)]
    rfl

theorem claim_C5_witness :
    tokenize "table([a = 1, b = 2])".toList =
      some [⟨.TABLE, "table"⟩, ⟨.LPAREN, "("⟩, ⟨.LBRACK, "["⟩, ⟨.NAME, "a"⟩,
        ⟨.EQUAL, "="⟩, ⟨.NUMBER, "1"⟩, ⟨.COMMA, ","⟩, ⟨.NAME, "b"⟩, ⟨.EQUAL, "="⟩,
        ⟨.NUMBER, "2"⟩, ⟨.RBRACK, "]"⟩, ⟨.RPAREN, ")"⟩, ⟨.EOF, ""⟩]
    ∧ deepNodup (.table [("a", .int 1), ("b", .int 2)]) = true :=
  ⟨by decide, claim_C5.1 "table([a = 1, b = 2])".toList
    [⟨.TABLE, "table"⟩, ⟨.LPAREN, "("⟩, ⟨.LBRACK, "["⟩, ⟨.NAME, "a"⟩,
      ⟨.EQUAL, "="⟩, ⟨.NUMBER, "1"⟩, ⟨.COMMA, ","⟩, ⟨.NAME, "b"⟩, ⟨.EQUAL, "="⟩,
      ⟨.NUMBER, "2"⟩, ⟨.RBRACK, "]"⟩, ⟨.RPAREN, ")"⟩, ⟨.EOF, ""⟩]
    12 [("a", .int 1), ("b", .int 2)] [⟨.EOF, ""⟩] (by decide) rfl⟩

/-- Claim C6: a substitution `?{name}` looks the name up in the constant
table at that point: if the name is absent the parse fails with the
undefined-constant error; if it is bound, the substitution returns exactly
the bound (already-resolved) value and consumes exactly the three
substitution tokens. -/
theorem claim_C6 (consts : ConstTable) (fuel : Nat) (qT nameT rbT : Token)
    (ts : List Token) (hq : qT.ttype = .QUESTION) (hn : nameT.ttype = .NAME)
    (hr : rbT.ttype = .RBRACE) :
    (lookupConst consts nameT.value = none →
      parseValueF consts (fuel + 1) (qT :: nameT :: rbT :: ts) =
        .error (.undefConst nameT.value))
    ∧ (∀ v, lookupConst consts nameT.value = some v →
      parseValueF consts (fuel + 1) (qT :: nameT :: rbT :: ts) = .ok (v, ts)) := by
  have hbody : ∀ res, lookupConst consts nameT.value = res →
      parseValueF consts (fuel + 1) (qT :: nameT :: rbT :: ts) =
        (match res with
          | some v => .ok (v, ts)
          | none => .error (.undefConst nameT.value)) := by
    intro res hres
    simp only [parseValueF, hq]
    rw [eatTok_cons .NAME nameT _ hn]
    simp only
    rw [eatTok_cons .RBRACE rbT _ hr]
    simp only
    rw [hres]
  constructor
  · intro hnone
    rw [hbody none hnone]
  · intro v hsome
    rw [hbody (some v) hsome]

theorem claim_C6_witness :
    (lookupConst [] "missing" = none →
      parseValueF [] 5 [⟨TokT.QUESTION, "?"⟩, ⟨TokT.NAME, "missing"⟩,
        ⟨TokT.RBRACE, ""⟩, ⟨TokT.EOF, ""⟩] =
        .error (.undefConst "missing"))
    ∧ (∀ v, lookupConst [] "missing" = some v →
      parseValueF [] 5 [⟨TokT.QUESTION, "?"⟩, ⟨TokT.NAME, "missing"⟩,
        ⟨TokT.RBRACE, ""⟩, ⟨TokT.EOF, ""⟩] =
        .ok (v, [⟨TokT.EOF, ""⟩])) :=
  claim_C6 [] 4 ⟨TokT.QUESTION, "?"⟩ ⟨TokT.NAME, "missing"⟩ ⟨TokT.RBRACE, ""⟩
    [⟨TokT.EOF, ""⟩] rfl rfl rfl

/-- Claim C7: insertion order is source order.  Parsing the canonical token
rendering of any pair list whose tree satisfies the parser's invariants
returns exactly that pair list — the resulting table's key order is the
left-to-right order of the pairs in the source literal, outer and nested
alike (the result is the rendered tree itself). -/
theorem claim_C7 (consts : ConstTable) (ps : List (String × Value))
    (rest : List Token) (fuel : Nat) (hg : GoodV (.table ps))
    (hf : needV (.table ps) ≤ fuel) :
    parseValueF consts fuel (valueToks (.table ps) ++ rest) = .ok (.table ps, rest) :=
  valueComplete (sizeOf (Value.table ps)) (.table ps) le_rfl hg consts fuel rest hf

theorem claim_C7_witness :
    GoodV (.table [("b", .int 1), ("a", .table [("z", .bool true), ("y", .str "v")])])
    ∧ needV (.table [("b", .int 1), ("a", .table [("z", .bool true), ("y", .str "v")])]) ≤ 30
    ∧ parseValueF [] 30 (valueToks (.table [("b", .int 1),
        ("a", .table [("z", .bool true), ("y", .str "v")])]) ++ [⟨TokT.EOF, ""⟩]) =
      .ok (.table [("b", .int 1), ("a", .table [("z", .bool true), ("y", .str "v")])],
        [⟨TokT.EOF, ""⟩]) :=
  ⟨⟨by simp [deepNodup, deepNodupL, keysNodup, keyMem],
    by simp [noQuote, noQuoteL]⟩,
   by simp [needV, needP],
   claim_C7 [] [("b", .int 1), ("a", .table [("z", .bool true), ("y", .str "v")])]
     [⟨TokT.EOF, ""⟩] 30
     ⟨by simp [deepNodup, deepNodupL, keysNodup, keyMem], by simp [noQuote, noQuoteL]⟩
     (by simp [needV, needP])⟩

/-- Claim C8: the documented example parses to the documented mapping with
scalar types preserved — `enabled` a boolean, `retries` the integer `3`
obtained by constant substitution, `description` a string. -/
theorem claim_C8 :
    runPipeline "count = 3; table([enabled = true, retries = ?\x7bcount\x7d, description = \"Test run\"])" =
      some (.ok ([("enabled", .bool true), ("retries", .int 3),
        ("description", .str "Test run")], [⟨.EOF, ""⟩])) := by
  unfold runPipeline
  rw [removeComments_id _ (by decide)]
  rfl

/-- Claim C9 counterexample: a backslash CAN appear in a parsed string
value: the lexer's string pattern excludes only the quote character, so
`table([k = "a\b"])` parses successfully to a mapping whose string value
contains a literal backslash — contradicting the claim that no string
value in a result tree contains a backslash. -/
theorem claim_C9_counterexample :
    runPipeline "table([k = \"a\\b\"])" =
      some (.ok ([("k", .str "a\\b")], [⟨.EOF, ""⟩]))
    ∧ ("a\\b".toList.contains '\\') = true := by
  constructor
  · unfold runPipeline
    rw [removeComments_id _ (by decide)]
    rfl
  · decide

/-- Claim C9 (amended): a string value is exactly the literal text between
the two quote delimiters with no escape-sequence processing — the lexer
turns a quote-free body into one `STRING` token whose payload is the body
inside its delimiters, and the parser returns precisely that body; and no
string value in the tree returned by a successful whole parse of lexer
output contains a double quote.  (A literal backslash, however, CAN occur
in a string value; only the quote is unrepresentable.) -/
theorem claim_C9 :
    (∀ s more : List Char, s.contains '"' = false →
      nextTok ('"' :: (s ++ '"' :: more)) =
        some (some ⟨.STRING, String.mk ('"' :: (s ++ ['"']))⟩, more))
    ∧ (∀ (consts : ConstTable) (fuel : Nat) (s : List Char) (rest : List Token),
      s.contains '"' = false →
      parseValueF consts (fuel + 1) (⟨.STRING, String.mk ('"' :: (s ++ ['"']))⟩ :: rest) =
        .ok (.str (String.mk s), rest))
    ∧ (∀ cs ts fuel m r, tokenize cs = some ts → parseConfigF fuel ts = .ok (m, r) →
      noQuote (.table m) = true) := by
  refine ⟨?_, ?_, ?_⟩
  · intro s more hs
    simp only [nextTok]
    rw [if_neg (by simp [isPre, show (('t' : Char) == '"') = false from by decide])]
    rw [if_neg (show ¬('"' = '[') from by decide)]
    rw [if_neg (show ¬('"' = ']') from by decide)]
    rw [if_neg (show ¬('"' = '(') from by decide)]
    rw [if_neg (show ¬('"' = ')') from by decide)]
    rw [if_neg (show ¬('"' = '=') from by decide)]
    rw [if_neg (show ¬('"' = ',') from by decide)]
    rw [if_neg (show ¬('"' = ';') from by decide)]
    rw [if_neg (by simp [isPre, show (('t' : Char) == '"') = false from by decide])]
    rw [if_neg (by simp [isPre, show (('f' : Char) == '"') = false from by decide])]
    rw [if_neg (show ¬('"' = '?') from by decide)]
    rw [if_neg (show ¬('"' = '\x7d') from by decide)]
    simp only [if_true]
    rw [scanStringBody_complete s more hs]
  · intro consts fuel s rest hs
    simp only [parseValueF]
    rw [stripQuotes_quoted s hs]
  · intro cs ts fuel m r htok hp
    exact (parseConfigF_good fuel ts m r (tokenizeF_wf (cs.length + 1) cs ts htok) hp).1.2

theorem claim_C9_witness :
    ("hi there".toList.contains '"' = false
      ∧ nextTok ('"' :: ("hi there".toList ++ '"' :: " x".toList)) =
        some (some ⟨TokT.STRING, String.mk ('"' :: ("hi there".toList ++ ['"']))⟩,
          " x".toList))
    ∧ parseValueF [] 5 (⟨TokT.STRING, String.mk ('"' :: ("hi there".toList ++ ['"']))⟩ ::
        [⟨TokT.EOF, ""⟩]) = .ok (.str (String.mk "hi there".toList), [⟨TokT.EOF, ""⟩]) :=
  ⟨⟨by decide, claim_C9.1 "hi there".toList " x".toList (by decide)⟩,
   claim_C9.2.1 [] 4 "hi there".toList [⟨TokT.EOF, ""⟩] (by decide)⟩

/-- Claim C10: re-declaring a constant does not fail; it silently rebinds
the name.  After a second binding of the same name, every lookup behaves
exactly as if only the later binding had been made (last wins); and in the
whole pipeline, `x = 1; y = ?{x}; x = 2; ...` yields `a = 2` from the
re-declared `x` while `b = 1` keeps the value `y` captured when it was
declared — substitutions already made are unaffected by later
re-declarations. -/
theorem claim_C10 :
    (∀ (consts : ConstTable) (k : String) (v1 v2 : Value) (n : String),
      lookupConst (insertConst (insertConst consts k v1) k v2) n =
        lookupConst (insertConst consts k v2) n)
    ∧ runPipeline "x = 1; y = ?\x7bx\x7d; x = 2; table([a = ?\x7bx\x7d, b = ?\x7by\x7d])" =
      some (.ok ([("a", .int 2), ("b", .int 1)], [⟨.EOF, ""⟩])) := by
  constructor
  · intro consts k v1 v2 n
    simp only [insertConst, lookupConst]
    by_cases hk : k = n
    · rw [if_pos hk, if_pos hk]
    · rw [if_neg hk, if_neg hk, if_neg hk]
  · unfold runPipeline
    rw [removeComments_id _ (by decide)]
    rfl

theorem claim_C10_witness :
    lookupConst (insertConst (insertConst [] "x" (.int 1)) "x" (.int 2)) "x" =
      lookupConst (insertConst [] "x" (.int 2)) "x" :=
  claim_C10.1 [] "x" (.int 1) (.int 2) "x"
